import Mathlib

/-!
# Verification of the multi-host connection manager (Proxmox Homey app)

Shallow embedding of the connection-resilience core:

* `HostManager` (source: `lib/HostManager.js`): per-host health records,
  per-host circuit breakers, preferred-host scoring, ordered host list,
  stale-host sweep.
* The fallback executor `_executeApiCallWithFallback`
  (source: `drivers/proxmox-cluster/device-improved.js`): ordered attempt
  loop with 4xx short-circuit, response cache and in-flight request
  coalescing.
* The HTTP client error classification (source: `lib/ProxmoxClient.js`):
  non-2xx responses become API errors carrying `statusCode`; network-level
  failures carry an error `code`.

JavaScript `Map` objects are modelled as insertion-ordered association
lists (`Jmap`): `set` replaces in place or appends, `get?` returns the
first binding, `del` removes the binding.  Timestamps (`Date.now()`) are
naturals passed in explicitly.  The platform-bridge side effects
(capability updates, logging) carry no data relevant to the claims and are
omitted.
-/

namespace Jmap

/-- JS `Map.set`: replace the binding in place if the key is present
(keeping its position), else append at the end. -/
def set {K V : Type} [DecidableEq K] : List (K × V) → K → V → List (K × V)
  | [], k, v => [(k, v)]
  | p :: ps, k, v => if p.1 = k then (k, v) :: ps else p :: set ps k v

/-- JS `Map.get`: first binding for the key. -/
def get? {K V : Type} [DecidableEq K] : List (K × V) → K → Option V
  | [], _ => none
  | p :: ps, k => if p.1 = k then some p.2 else get? ps k

/-- JS `Map.delete`: remove the first binding for the key. -/
def del {K V : Type} [DecidableEq K] : List (K × V) → K → List (K × V)
  | [], _ => []
  | p :: ps, k => if p.1 = k then ps else p :: del ps k

end Jmap

/-! ## Host registry data model (source: `lib/HostManager.js`) -/

/-- Circuit-breaker state (`'closed' | 'open' | 'half-open'`). -/
inductive BState where
  | closed
  | opened
  | halfOpen
deriving DecidableEq

/-- Host status (`'healthy' | 'unhealthy' | 'unknown'`). -/
inductive HStatus where
  | unknown
  | healthy
  | unhealthy
deriving DecidableEq

/-- Per-host health record (`this.hosts` values). -/
structure HostInfo where
  lastSeen : Nat
  responseTime : Nat
  failureCount : Nat
  status : HStatus
  lastFailure : Option Nat
deriving DecidableEq

/-- Per-host circuit breaker (`this.circuitBreakers` values). -/
structure Breaker where
  failures : Nat
  lastFailure : Nat
  state : BState
deriving DecidableEq

/-- The `HostManager` instance state. -/
structure HostManager where
  hosts : List (String × HostInfo)
  circuitBreakers : List (String × Breaker)
  primaryHost : Option String
  preferredHost : Option String
deriving DecidableEq

/-- `timeouts.breakerOpen` (1 minute before half-open). -/
def breakerOpenTimeout : Nat := 60000

/-- `timeouts.maxHostAge` (5 minutes before forgetting a host). -/
def maxHostAge : Nat := 300000

/-- `timeouts.recentHost` (2 minutes to count as recently seen). -/
def recentHostWindow : Nat := 120000

/-- Circuit-breaker trip threshold (`breaker.failures >= 3`). -/
def openThreshold : Nat := 3

/-- Fresh `HostInfo` default used on first reference of a host. -/
def freshInfo : HostInfo := ⟨0, 0, 0, .unknown, none⟩

/-- Fresh breaker default (`{ failures: 0, lastFailure: 0, state: 'closed' }`). -/
def freshBreaker : Breaker := ⟨0, 0, .closed⟩

namespace HostManager

/-- The breaker value written by `_recordFailure`: increment, stamp, and
flip to `open` when the threshold is reached and it is not already open. -/
def recordedBreaker (b0 : Breaker) (now : Nat) : Breaker :=
  let b1 : Breaker := { failures := b0.failures + 1, lastFailure := now, state := b0.state }
  if openThreshold ≤ b1.failures ∧ b1.state ≠ .opened then { b1 with state := .opened }
  else b1

/-- `_recordFailure(host)`. -/
def recordFailure (hm : HostManager) (host : String) (now : Nat) : HostManager :=
  let b2 := recordedBreaker ((Jmap.get? hm.circuitBreakers host).getD freshBreaker) now
  { hm with circuitBreakers := Jmap.set hm.circuitBreakers host b2 }

/-- `_resetCircuitBreaker(host)`: zero the count and close, if a record exists. -/
def resetCircuitBreaker (hm : HostManager) (host : String) : HostManager :=
  match Jmap.get? hm.circuitBreakers host with
  | none => hm
  | some b =>
    { hm with circuitBreakers :=
        Jmap.set hm.circuitBreakers host { b with failures := 0, state := .closed } }

/-- `_getCircuitBreakerState(host)`: read-time lazy `open → half-open`
transition; returns the state and the (possibly mutated) manager. -/
def getCircuitBreakerState (hm : HostManager) (host : String) (now : Nat) :
    BState × HostManager :=
  match Jmap.get? hm.circuitBreakers host with
  | none => (.closed, hm)
  | some b =>
    if b.state = .opened ∧ breakerOpenTimeout < now - b.lastFailure then
      (.halfOpen,
        { hm with circuitBreakers :=
            Jmap.set hm.circuitBreakers host { b with state := .halfOpen } })
    else (b.state, hm)

/-- The preference score:
`1000 - responseTime - failureCount*100 (+50 if primary)`. -/
def hostScore (primary : Option String) (host : String) (info : HostInfo) : Int :=
  1000 - (info.responseTime : Int) - (info.failureCount : Int) * 100
    + (if some host = primary then 50 else 0)

/-- The scan loop of `_updatePreferredHost`: iterates the host list,
querying (and possibly mutating) each breaker, keeping the strictly best
score seen so far (first host wins ties). -/
def scanBest (primary : Option String) (now : Nat) :
    List (String × HostInfo) → HostManager → Option (String × Int) →
    HostManager × Option (String × Int)
  | [], hm, best => (hm, best)
  | (h, info) :: rest, hm, best =>
    let r := getCircuitBreakerState hm h now
    if r.1 = .opened then scanBest primary now rest r.2 best
    else if maxHostAge < now - info.lastSeen then scanBest primary now rest r.2 best
    else
      let s := hostScore primary h info
      let best' := match best with
        | none => some (h, s)
        | some (bh, bs) => if bs < s then some (h, s) else some (bh, bs)
      scanBest primary now rest r.2 best'

/-- `_updatePreferredHost()`. -/
def updatePreferredHost (hm : HostManager) (now : Nat) : HostManager :=
  let r := scanBest hm.primaryHost now hm.hosts hm none
  match r.2 with
  | some (bh, _) =>
    if bh ≠ "" ∧ some bh ≠ r.1.preferredHost then { r.1 with preferredHost := some bh }
    else r.1
  | none => r.1

/-- `updateHostStatus(host, success, responseTime)`. -/
def updateHostStatus (hm : HostManager) (host : String) (success : Bool)
    (responseTime : Nat) (now : Nat) : HostManager :=
  let cur := (Jmap.get? hm.hosts host).getD freshInfo
  if success then
    let cur' : HostInfo :=
      { lastSeen := now, responseTime := responseTime, failureCount := 0,
        status := .healthy, lastFailure := cur.lastFailure }
    let hm1 := resetCircuitBreaker hm host
    let hm2 := { hm1 with hosts := Jmap.set hm1.hosts host cur' }
    updatePreferredHost hm2 now
  else
    let cur' : HostInfo :=
      { cur with
        failureCount := cur.failureCount + 1, status := .unhealthy,
        lastFailure := some now }
    let hm1 := recordFailure hm host now
    { hm1 with hosts := Jmap.set hm1.hosts host cur' }

/-- The backup-candidate loop of `getOrderedHostList` (step 2): every
non-preferred host whose breaker is not open and that is not older than
`maxHostAge`, scored `-responseTime`. -/
def collectOthers (pref : Option String) (now : Nat) :
    List (String × HostInfo) → HostManager → List (String × Int) × HostManager
  | [], hm => ([], hm)
  | (h, info) :: rest, hm =>
    if some h = pref then collectOthers pref now rest hm
    else
      let r := getCircuitBreakerState hm h now
      if r.1 = .opened then collectOthers pref now rest r.2
      else if maxHostAge < now - info.lastSeen then collectOthers pref now rest r.2
      else
        let rr := collectOthers pref now rest r.2
        ((h, -(info.responseTime : Int)) :: rr.1, rr.2)

/-- The unsorted candidate list of `getOrderedHostList`: the preferred host
(sentinel score 999999) when present, not open and recently seen, followed
by the step-2 candidates. -/
def orderedCandidates (hm : HostManager) (now : Nat) :
    List (String × Int) × HostManager :=
  let step1 : List (String × Int) × HostManager :=
    match hm.preferredHost with
    | some ph =>
      if ph ≠ "" then
        let info? := Jmap.get? hm.hosts ph
        let r := getCircuitBreakerState hm ph now
        match info? with
        | some info =>
          if r.1 ≠ .opened ∧ now - info.lastSeen < recentHostWindow then
            ([(ph, (999999 : Int))], r.2)
          else ([], r.2)
        | none => ([], r.2)
      else ([], hm)
    | none => ([], hm)
  let step2 := collectOthers hm.preferredHost now hm.hosts step1.2
  (step1.1 ++ step2.1, step2.2)

/-- Stable insertion (descending by score), modelling the stable JS
`candidates.sort((a, b) => b.score - a.score)`. -/
def insertDesc (x : String × Int) : List (String × Int) → List (String × Int)
  | [] => [x]
  | y :: ys => if y.2 ≤ x.2 then x :: y :: ys else y :: insertDesc x ys

/-- Stable sort, descending by score. -/
def sortDesc : List (String × Int) → List (String × Int)
  | [] => []
  | x :: xs => insertDesc x (sortDesc xs)

/-- `getOrderedHostList()`: sorted candidates, or `[primaryHost]` as a
last resort when the candidate list is empty. -/
def getOrderedHostList (hm : HostManager) (now : Nat) :
    List String × HostManager :=
  let r := orderedCandidates hm now
  let sorted := sortDesc r.1
  if sorted.isEmpty then
    match hm.primaryHost with
    | some p => if p ≠ "" then ([p], r.2) else ([], r.2)
    | none => ([], r.2)
  else (sorted.map Prod.fst, r.2)

/-- `cleanup()`: drop hosts (and their breakers) not seen within
`maxHostAge`. -/
def cleanup (hm : HostManager) (now : Nat) : HostManager :=
  let staleKeys :=
    (hm.hosts.filter (fun p => decide (maxHostAge < now - p.2.lastSeen))).map Prod.fst
  { hm with
    hosts := hm.hosts.filter (fun p => !(decide (maxHostAge < now - p.2.lastSeen))),
    circuitBreakers := hm.circuitBreakers.filter (fun p => !(decide (p.1 ∈ staleKeys))) }

/-- `setPrimaryHost(host)`. -/
def setPrimaryHost (hm : HostManager) (host : String) : HostManager :=
  let hm1 := { hm with primaryHost := some host }
  let hm2 := resetCircuitBreaker hm1 host
  { hm2 with preferredHost := some host }

/-- `initialize(primaryHost, initialHosts)`. -/
def initializeHM (hm : HostManager) (primary : String) (backups : List String)
    (now : Nat) : HostManager :=
  let hm1 := { hm with primaryHost := some primary, preferredHost := some primary }
  let hm2 := updateHostStatus hm1 primary true 0 now
  backups.foldl
    (fun acc h => if h ≠ "" ∧ h ≠ primary then updateHostStatus acc h true 0 now else acc)
    hm2

end HostManager

deriving instance DecidableEq for Except

/-! ## HTTP client error classification (source: `lib/ProxmoxClient.js`) -/

/-- Errors observable from one request attempt:
* `api status bodyExcerpt` — the host answered with a non-2xx status
  (`error.statusCode = response.status`);
* `net code` — a network-level failure (timeout `ETIMEDOUT`, refused
  connection, DNS, TLS), no `statusCode` field;
* `plain msg` — a plain `new Error(msg)` synthesised by the executor. -/
inductive ErrV where
  | api (status : Nat) (body : String)
  | net (code : String)
  | plain (msg : String)
deriving DecidableEq

/-- One raw HTTP exchange: either a network-level failure code, or a
response with its `ok` flag (2xx), status and body text. -/
structure HttpResponse where
  ok : Bool
  status : Nat
  body : String
deriving DecidableEq

/-- `ProxmoxClient.request` outcome classification: a non-2xx response
throws an error carrying `statusCode` and the first 200 body characters;
network failures surface their code; a 2xx body is returned as-is. -/
def requestOutcome (exchange : Except String HttpResponse) : Except ErrV String :=
  match exchange with
  | .error code => .error (.net code)
  | .ok r => if r.ok then .ok r.body else .error (.api r.status (r.body.take 200))

/-- The executor's non-failover test
(`error.statusCode && error.statusCode >= 400 && error.statusCode < 500`). -/
def isClientApiError : ErrV → Bool
  | .api s _ => decide (400 ≤ s) && decide (s < 500)
  | .net _ => false
  | .plain _ => false

/-! ## Fallback executor (source: `_executeApiCallWithFallback`) -/

/-- The per-host attempt loop: on success record the host healthy with
response time 0 and stop; on failure record the host unhealthy, keep the
error as `lastError`, short-circuit on a 4xx API error, otherwise try the
next host; when the list is exhausted rethrow `lastError` (or a synthetic
`Connection failed` if none exists).  Also returns the list of hosts
actually attempted, in order. -/
def tryHosts {α : Type} (net : String → Except ErrV α) (now : Nat) :
    List String → HostManager → Option ErrV →
    Except ErrV α × HostManager × List String
  | [], hm, lastErr => (.error (lastErr.getD (.plain "Connection failed")), hm, [])
  | h :: rest, hm, lastErr =>
    match net h with
    | .ok v => (.ok v, hm.updateHostStatus h true 0 now, [h])
    | .error e =>
      let hm1 := hm.updateHostStatus h false 0 now
      if isClientApiError e then (.error e, hm1, [h])
      else
        let r := tryHosts net now rest hm1 (some e)
        (r.1, r.2.1, h :: r.2.2)

/-- The attempt phase of `_executeApiCallWithFallback`: take the ordered
host list; if it is empty fail with `No available hosts.`, else run the
attempt loop. -/
def executeAttempts {α : Type} (net : String → Except ErrV α)
    (hm : HostManager) (now : Nat) :
    Except ErrV α × HostManager × List String :=
  let r := hm.getOrderedHostList now
  if r.1.isEmpty then (.error (.plain "No available hosts."), r.2, [])
  else tryHosts net now r.1 r.2 none

/-! ## Response cache and request coalescing (source: `requestCache`,
`pendingRequests`, `_getCachedResponse`, `_setCachedResponse`) -/

/-- `cacheTimeout` (5 minutes). -/
def cacheTTL : Nat := 300000

/-- One `requestCache` entry: `{ data, ts }`. -/
structure CacheEntry (α : Type) where
  data : α
  ts : Nat
deriving DecidableEq

/-- `_getCachedResponse(key)`: the stored payload if the entry exists and
is younger than the TTL, else `null`.  The method never mutates the
cache — in particular an expired entry is NOT evicted. -/
def getCachedResponse {α : Type} (cache : List (String × CacheEntry α))
    (key : String) (now : Nat) : Option α :=
  match Jmap.get? cache key with
  | some e => if now - e.ts < cacheTTL then some e.data else none
  | none => none

/-- `_setCachedResponse(key, data)`: unconditional overwrite. -/
def setCachedResponse {α : Type} (cache : List (String × CacheEntry α))
    (key : String) (data : α) (now : Nat) : List (String × CacheEntry α) :=
  Jmap.set cache key ⟨data, now⟩

/-- Coalescer state: the response cache, the in-flight `pendingRequests`
map (key to promise id), a fresh-promise counter and the set of unsettled
request promises `(id, key, registered?)`.  `registered?` records whether
the call entered the `pendingRequests`/cache bookkeeping branch
(`isGet && !skipCache`). -/
structure CoState (α : Type) where
  cache : List (String × CacheEntry α)
  pending : List (String × Nat)
  nextId : Nat
  active : List (Nat × String × Bool)
deriving DecidableEq

/-- What one `_executeApiCallWithFallback` entry returns immediately:
a fresh cached value, attachment to the in-flight promise for the key, or
a newly started request promise. -/
inductive CallRes (α : Type) where
  | cachedHit (v : α)
  | attached (pid : Nat)
  | started (pid : Nat)
deriving DecidableEq

/-- The synchronous prefix of `_executeApiCallWithFallback` (one event-loop
turn, hence atomic): cacheable GETs first consult the cache, then the
in-flight map; otherwise a new request promise is created, and registered
in `pendingRequests` when `isGet && !skipCache`. -/
def callStep {α : Type} (s : CoState α) (key : String)
    (isGet skipC refreshC : Bool) (now : Nat) : CallRes α × CoState α :=
  let start : CallRes α × CoState α :=
    let pid := s.nextId
    let reg := isGet && !skipC
    (.started pid,
      { cache := s.cache,
        pending := if reg then Jmap.set s.pending key pid else s.pending,
        nextId := pid + 1,
        active := (pid, key, reg) :: s.active })
  if isGet && !skipC && !refreshC then
    match getCachedResponse s.cache key now with
    | some v => (.cachedHit v, s)
    | none =>
      match Jmap.get? s.pending key with
      | some p => (.attached p, s)
      | none => start
  else start

/-- Settlement of a request promise (the `await`/`finally` tail of
`_executeApiCallWithFallback`, again one atomic turn): for a registered
call, a success overwrites the cache entry and the `finally` clause always
deletes the key from `pendingRequests`; the promise leaves the active
set. -/
def settleStep {α : Type} (s : CoState α) (pid : Nat)
    (outcome : Except ErrV α) (now : Nat) : CoState α :=
  match Jmap.get? s.active pid with
  | none => s
  | some (key, reg) =>
    { cache :=
        if reg then
          match outcome with
          | .ok v => setCachedResponse s.cache key v now
          | .error _ => s.cache
        else s.cache,
      pending := if reg then Jmap.del s.pending key else s.pending,
      nextId := s.nextId,
      active := Jmap.del s.active pid }

/-- Events of the coalescer transition system. -/
inductive CoEv (α : Type) where
  | call (key : String) (isGet skipC refreshC : Bool) (now : Nat)
  | settle (pid : Nat) (outcome : Except ErrV α) (now : Nat)

/-- One transition. -/
def coStep {α : Type} (s : CoState α) : CoEv α → CoState α
  | .call k g sk r now => (callStep s k g sk r now).2
  | .settle pid o now => settleStep s pid o now

/-- Initial coalescer state (`onInit`: empty maps). -/
def coInit (α : Type) : CoState α := ⟨[], [], 0, []⟩

/-- Run a trace of events. -/
def coRun {α : Type} (evs : List (CoEv α)) : CoState α :=
  evs.foldl coStep (coInit α)

/-- Traces whose call events are all plain cacheable GETs
(`isGet, ¬skipCache, ¬refreshCache`); settlements are unrestricted. -/
def PlainTrace {α : Type} (evs : List (CoEv α)) : Prop :=
  ∀ ev ∈ evs, match ev with
    | CoEv.call _ g sk r _ => g = true ∧ sk = false ∧ r = false
    | CoEv.settle _ _ _ => True

/-! ## Health-monitor probe recording (source: `_performHealthCheck`) -/

/-- One direct probe of the health monitor: on success the measured
latency `Date.now() - start` is recorded; on failure the host is recorded
unhealthy. -/
def healthPing (hm : HostManager) (host : String) (ok : Bool)
    (elapsed : Nat) (now : Nat) : HostManager :=
  if ok then hm.updateHostStatus host true elapsed now
  else hm.updateHostStatus host false 0 now

/-! ## Operation alphabet of the host registry (for reachability
invariants): every public entry point of `HostManager`. -/

inductive HMOp where
  | status (host : String) (success : Bool) (rt : Nat) (now : Nat)
  | query (host : String) (now : Nat)
  | ordered (now : Nat)
  | recompute (now : Nat)
  | setPrimary (host : String)
  | sweep (now : Nat)
  | init (primary : String) (backups : List String) (now : Nat)

/-- Apply one operation. -/
def applyOp (hm : HostManager) : HMOp → HostManager
  | .status h s rt now => hm.updateHostStatus h s rt now
  | .query h now => (hm.getCircuitBreakerState h now).2
  | .ordered now => (hm.getOrderedHostList now).2
  | .recompute now => hm.updatePreferredHost now
  | .setPrimary h => hm.setPrimaryHost h
  | .sweep now => hm.cleanup now
  | .init p bs now => hm.initializeHM p bs now

/-- The constructor state: empty maps, no primary, no preferred host. -/
def initHM : HostManager := ⟨[], [], none, none⟩

/-- The registry state after an arbitrary operation sequence. -/
def runOps (ops : List HMOp) : HostManager := ops.foldl applyOp initHM

/-- The stored breaker record of `h` is literally in state `open`. -/
def breakerIsOpen (hm : HostManager) (h : String) : Prop :=
  (Jmap.get? hm.circuitBreakers h).map Breaker.state = some BState.opened


/-! ## Specification predicates and concrete scenario states -/

/-- Every stored breaker record in state `open` has at least
`openThreshold` recorded failures. -/
def BreakerInv (hm : HostManager) : Prop :=
  ∀ p ∈ hm.circuitBreakers, (p : String × Breaker).2.state = BState.opened →
    openThreshold ≤ p.2.failures

/-- Three consecutive failures on host `a`, starting from the fresh
constructor state. -/
def c5ops : List HMOp :=
  [HMOp.status "a" false 0 1, HMOp.status "a" false 0 2, HMOp.status "a" false 0 3]

/-- The C2 scenario: primary `10.0.0.1` healthy at 500 ms, backup
`10.0.0.2` healthy at 10 ms and preferred, `10.0.0.3` with an open
breaker. -/
def hmScenarioC2 : HostManager :=
  { hosts := [("10.0.0.1", ⟨1000000, 500, 0, .healthy, none⟩),
              ("10.0.0.2", ⟨1000000, 10, 0, .healthy, none⟩),
              ("10.0.0.3", ⟨1000000, 30, 3, .unhealthy, some 1000000⟩)],
    circuitBreakers := [("10.0.0.3", ⟨3, 1000000, .opened⟩)],
    primaryHost := some "10.0.0.1",
    preferredHost := some "10.0.0.2" }

/-- A host qualifies for preference scoring when its breaker does not read
`open` and it was seen within `maxHostAge`. -/
def qualB (hm : HostManager) (now : Nat) (h : String) (info : HostInfo) : Bool :=
  !(decide ((hm.getCircuitBreakerState h now).1 = BState.opened)) &&
    !(decide (maxHostAge < now - info.lastSeen))

/-- Side-effect-free rendition of the `_updatePreferredHost` scan loop. -/
def pureScan (primary : Option String) (q : String → HostInfo → Bool) :
    List (String × HostInfo) → Option (String × Int) → Option (String × Int)
  | [], best => best
  | (h, info) :: rest, best =>
    if q h info then
      let s := HostManager.hostScore primary h info
      let best' := match best with
        | none => some (h, s)
        | some (bh, bs) => if bs < s then some (h, s) else some (bh, bs)
      pureScan primary q rest best'
    else pureScan primary q rest best

/-- `best` is the first maximal-score qualifier of `l` (or `l` has no
qualifier at all). -/
def FirstMaxSpec (primary : Option String) (q : String → HostInfo → Bool)
    (l : List (String × HostInfo)) : Option (String × Int) → Prop
  | none => ∀ p ∈ l, q p.1 p.2 = false
  | some (bh, bs) =>
    ∃ pre info post, l = pre ++ (bh, info) :: post ∧ q bh info = true ∧
      bs = HostManager.hostScore primary bh info ∧
      (∀ p ∈ pre, q p.1 p.2 = true → HostManager.hostScore primary p.1 p.2 < bs) ∧
      (∀ p ∈ post, q p.1 p.2 = true → HostManager.hostScore primary p.1 p.2 ≤ bs)

/-- The C3 scenario: two healthy hosts at 10 ms and 500 ms, the 500 ms
host being primary, zero failures everywhere. -/
def hmScenarioC3 : HostManager :=
  { hosts := [("10.0.0.1", ⟨1000000, 500, 0, .healthy, none⟩),
              ("10.0.0.2", ⟨1000000, 10, 0, .healthy, none⟩)],
    circuitBreakers := [],
    primaryHost := some "10.0.0.1",
    preferredHost := some "10.0.0.1" }

/-- The C1 counterexample state: two healthy hosts ordered
`["h1", "h2"]`. -/
def hmScenarioC1 : HostManager :=
  { hosts := [("h1", ⟨1000, 10, 0, .healthy, none⟩),
              ("h2", ⟨1000, 20, 0, .healthy, none⟩)],
    circuitBreakers := [], primaryHost := some "h1", preferredHost := none }

/-- The C1 counterexample network: `h1` answers HTTP 500 (an `ApiError`
per the client contract), `h2` succeeds. -/
def netScenarioC1 : String → Except ErrV String
  | "h1" => Except.error (ErrV.api 500 "boom")
  | "h2" => Except.ok "v"
  | _ => Except.error (ErrV.net "EHOSTUNREACH")

/-- A network in which the first host fails with a connection error and
the second host answers HTTP 401, so the 4xx occurs on a fallback
host. -/
def netScenarioC1b : String → Except ErrV String
  | "h1" => Except.error (ErrV.net "ECONNREFUSED")
  | "h2" => Except.error (ErrV.api 401 "auth")
  | _ => Except.ok "v"

/-- A network in which the first host times out and every other host
succeeds, so the executor succeeds on the fallback host. -/
def netScenarioC10 : String → Except ErrV String
  | "h1" => Except.error (ErrV.net "ETIMEDOUT")
  | _ => Except.ok "v"

/-- No new latency measurement was stored between two registry states:
every host record of the second state carries either response time 0 or
a response time already stored for that host in the first state.  The
fallback executor only ever records response time 0 (success) or copies
the stored value (failure), so it satisfies this relation — measured
latencies can enter the registry only through the health probes. -/
def NoNewLatency (hm hm' : HostManager) : Prop :=
  ∀ (k : String) (info' : HostInfo), Jmap.get? hm'.hosts k = some info' →
    info'.responseTime = 0 ∨
    ∃ info, Jmap.get? hm.hosts k = some info ∧
      info'.responseTime = info.responseTime

/-- The C9 scenario: three healthy hosts ordered by response time. -/
def hmScenarioC9 : HostManager :=
  { hosts := [("10.0.0.1", ⟨1000, 10, 0, .healthy, none⟩),
              ("10.0.0.2", ⟨1000, 20, 0, .healthy, none⟩),
              ("10.0.0.3", ⟨1000, 30, 0, .healthy, none⟩)],
    circuitBreakers := [], primaryHost := some "10.0.0.1", preferredHost := none }

/-- All three hosts refuse the connection, with distinct causes. -/
def netScenarioC9 : String → Except ErrV String
  | "10.0.0.1" => Except.error (ErrV.net "ECONNREFUSED-1")
  | "10.0.0.2" => Except.error (ErrV.net "ECONNREFUSED-2")
  | _ => Except.error (ErrV.net "ECONNREFUSED-3")

/-- Coalescer invariant for plain-cacheable-GET traces: every active
request promise is registered, the `pendingRequests` map holds exactly the
keys of the active promises, promise ids are below the fresh counter, and
both maps have distinct keys. -/
def CoInv {α : Type} (s : CoState α) : Prop :=
  (∀ pr ∈ s.active, (pr : Nat × String × Bool).2.2 = true) ∧
  (∀ (k : String) (p : Nat),
    Jmap.get? s.pending k = some p ↔ (p, k, true) ∈ s.active) ∧
  (∀ pr ∈ s.active, (pr : Nat × String × Bool).1 < s.nextId) ∧
  (s.active.map Prod.fst).Nodup ∧
  (s.pending.map Prod.fst).Nodup

/-- A coalescer state with promise 7 in flight for key `k`. -/
def coStateW : CoState String := ⟨[], [("k", 7)], 9, [(7, "k", true)]⟩

/-- A cache holding one entry stored at time 0. -/
def cacheScenarioC7 : List (String × CacheEntry String) := [("k", ⟨"old", 0⟩)]

/-- A manager holding one breaker opened at time 1000. -/
def hmOpenW : HostManager :=
  ⟨[("a", ⟨1000, 0, 3, .unhealthy, some 1000⟩)], [("a", ⟨3, 1000, .opened⟩)],
    some "a", some "a"⟩


/-! ## Association-list (JS Map) lemmas -/

namespace Jmap

variable {K V : Type} [DecidableEq K]

theorem get?_set_self (l : List (K × V)) (k : K) (v : V) :
    get? (set l k v) k = some v := by
  induction l with
  | nil => simp [set, get?]
  | cons p ps ih =>
    by_cases h : p.1 = k
    · simp [set, get?, h]
    · simp [set, get?, h, ih]

theorem get?_set_ne (l : List (K × V)) (k k' : K) (v : V) (h : k' ≠ k) :
    get? (set l k v) k' = get? l k' := by
  induction l with
  | nil => simp [set, get?, Ne.symm h]
  | cons p ps ih =>
    by_cases hp : p.1 = k
    · subst hp
      simp [set, get?, Ne.symm h]
    · by_cases hp' : p.1 = k'
      · simp [set, get?, hp, hp', h]
      · simp [set, get?, hp, hp', ih]

theorem mem_set {l : List (K × V)} {k : K} {v : V} {a : K × V}
    (h : a ∈ set l k v) : a = (k, v) ∨ a ∈ l := by
  induction l with
  | nil =>
    left
    simpa [set] using h
  | cons p ps ih =>
    by_cases hp : p.1 = k
    · rw [show set (p :: ps) k v = (k, v) :: ps by simp [set, hp]] at h
      rcases List.mem_cons.mp h with h' | h'
      · exact Or.inl h'
      · exact Or.inr (List.mem_cons_of_mem _ h')
    · rw [show set (p :: ps) k v = p :: set ps k v by simp [set, hp]] at h
      rcases List.mem_cons.mp h with h' | h'
      · exact Or.inr (by simp [h'])
      · rcases ih h' with h'' | h''
        · exact Or.inl h''
        · exact Or.inr (List.mem_cons_of_mem _ h'')

theorem get?_eq_some_mem {l : List (K × V)} {k : K} {v : V}
    (h : get? l k = some v) : (k, v) ∈ l := by
  induction l with
  | nil => simp [get?] at h
  | cons p ps ih =>
    rcases p with ⟨a, b⟩
    by_cases hp : a = k
    · have hv : b = v := by simpa [get?, hp] using h
      subst hp
      subst hv
      exact List.mem_cons_self _ _
    · have h' : get? ps k = some v := by simpa [get?, hp] using h
      exact List.mem_cons_of_mem _ (ih h')

theorem get?_eq_some_of_mem {l : List (K × V)} {k : K} {v : V}
    (hnd : (l.map Prod.fst).Nodup) (h : (k, v) ∈ l) : get? l k = some v := by
  induction l with
  | nil => simp at h
  | cons p ps ih =>
    simp only [List.map_cons, List.nodup_cons] at hnd
    rcases List.mem_cons.mp h with h' | h'
    · rw [← h']
      simp [get?]
    · have hk : p.1 ≠ k := by
        intro hk
        apply hnd.1
        rw [hk]
        exact List.mem_map_of_mem Prod.fst h'
      simp [get?, hk, ih hnd.2 h']

theorem keys_set (l : List (K × V)) (k : K) (v : V) :
    (set l k v).map Prod.fst = l.map Prod.fst ∨
      ((set l k v).map Prod.fst = l.map Prod.fst ++ [k] ∧ k ∉ l.map Prod.fst) := by
  induction l with
  | nil =>
    right
    simp [set]
  | cons p ps ih =>
    by_cases hp : p.1 = k
    · left
      simp [set, hp]
    · rcases ih with h | ⟨h, hk⟩
      · left
        simp [set, hp, h]
      · right
        refine ⟨by simp [set, hp, h], ?_⟩
        intro hmem
        rw [List.map_cons] at hmem
        rcases List.mem_cons.mp hmem with h' | h'
        · exact hp h'.symm
        · exact hk h'

theorem keys_set_nodup {l : List (K × V)} {k : K} {v : V}
    (hnd : (l.map Prod.fst).Nodup) : ((set l k v).map Prod.fst).Nodup := by
  rcases keys_set l k v with h | ⟨h, hk⟩
  · rwa [h]
  · rw [h]
    exact ((List.perm_append_singleton k _).nodup_iff).mpr (List.nodup_cons.mpr ⟨hk, hnd⟩)

theorem del_sublist (l : List (K × V)) (k : K) : List.Sublist (del l k) l := by
  induction l with
  | nil => simp [del]
  | cons p ps ih =>
    by_cases hp : p.1 = k
    · rw [show del (p :: ps) k = ps by simp [del, hp]]
      exact List.sublist_cons_self p ps
    · rw [show del (p :: ps) k = p :: del ps k by simp [del, hp]]
      exact List.Sublist.cons₂ p ih

theorem mem_del {l : List (K × V)} {k : K} {a : K × V}
    (h : a ∈ del l k) : a ∈ l :=
  (del_sublist l k).subset h

theorem keys_del_nodup {l : List (K × V)} {k : K}
    (hnd : (l.map Prod.fst).Nodup) : ((del l k).map Prod.fst).Nodup :=
  List.Nodup.sublist ((del_sublist l k).map Prod.fst) hnd

theorem get?_del_self {l : List (K × V)} {k : K}
    (hnd : (l.map Prod.fst).Nodup) : get? (del l k) k = none := by
  induction l with
  | nil => rfl
  | cons p ps ih =>
    rcases p with ⟨a, b⟩
    simp only [List.map_cons, List.nodup_cons] at hnd
    by_cases hp : a = k
    · subst hp
      rw [show del ((a, b) :: ps) a = ps by simp [del]]
      cases hval : get? ps a with
      | none => rfl
      | some v =>
        exact absurd (List.mem_map_of_mem Prod.fst (get?_eq_some_mem hval))
          (by simpa using hnd.1)
    · rw [show del ((a, b) :: ps) k = (a, b) :: del ps k by simp [del, hp]]
      simpa [get?, hp] using ih hnd.2

theorem get?_del_ne (l : List (K × V)) (k k' : K) (h : k' ≠ k) :
    get? (del l k) k' = get? l k' := by
  induction l with
  | nil => simp [del]
  | cons p ps ih =>
    by_cases hp : p.1 = k
    · subst hp
      simp [del, get?, Ne.symm h]
    · by_cases hp' : p.1 = k'
      · simp [del, get?, hp, hp', h]
      · simp [del, get?, hp, hp', ih]

theorem not_mem_del_self {l : List (K × V)} {k : K} {v : V}
    (hnd : (l.map Prod.fst).Nodup) (h : (k, v) ∈ del l k) : False := by
  have h1 := get?_eq_some_of_mem (keys_del_nodup hnd) h
  rw [get?_del_self hnd] at h1
  exact Option.noConfusion h1

theorem mem_del_of_fst_ne {l : List (K × V)} {k : K} {a : K × V}
    (ha : a.1 ≠ k) (h : a ∈ l) : a ∈ del l k := by
  induction l with
  | nil => simp at h
  | cons p ps ih =>
    by_cases hp : p.1 = k
    · rw [show del (p :: ps) k = ps by simp [del, hp]]
      rcases List.mem_cons.mp h with h' | h'
      · exact absurd (h' ▸ hp) ha
      · exact h'
    · rw [show del (p :: ps) k = p :: del ps k by simp [del, hp]]
      rcases List.mem_cons.mp h with h' | h'
      · exact h' ▸ List.mem_cons_self _ _
      · exact List.mem_cons_of_mem _ (ih h')

end Jmap

namespace HostManager

/-! ### Frame lemmas for the read-time breaker query -/

theorem getCB_hosts (hm : HostManager) (h : String) (now : Nat) :
    ((hm.getCircuitBreakerState h now).2).hosts = hm.hosts := by
  unfold getCircuitBreakerState
  split
  · rfl
  · split <;> rfl

theorem getCB_primary (hm : HostManager) (h : String) (now : Nat) :
    ((hm.getCircuitBreakerState h now).2).primaryHost = hm.primaryHost := by
  unfold getCircuitBreakerState
  split
  · rfl
  · split <;> rfl

theorem getCB_preferred (hm : HostManager) (h : String) (now : Nat) :
    ((hm.getCircuitBreakerState h now).2).preferredHost = hm.preferredHost := by
  unfold getCircuitBreakerState
  split
  · rfl
  · split <;> rfl

theorem getCB_breakers_ne (hm : HostManager) (h : String) (now : Nat) (k : String)
    (hk : k ≠ h) :
    Jmap.get? ((hm.getCircuitBreakerState h now).2).circuitBreakers k =
      Jmap.get? hm.circuitBreakers k := by
  unfold getCircuitBreakerState
  split
  · rfl
  · split
    · exact Jmap.get?_set_ne _ _ _ _ hk
    · rfl

/-- The state returned by the query depends only on the stored record of
the queried host. -/
theorem getCB_fst_congr (hm1 hm2 : HostManager) (h : String) (now : Nat)
    (hsame : Jmap.get? hm1.circuitBreakers h = Jmap.get? hm2.circuitBreakers h) :
    (hm1.getCircuitBreakerState h now).1 = (hm2.getCircuitBreakerState h now).1 := by
  unfold getCircuitBreakerState
  rw [hsame]
  cases Jmap.get? hm2.circuitBreakers h with
  | none => rfl
  | some b =>
    dsimp only
    by_cases hc : b.state = BState.opened ∧ breakerOpenTimeout < now - b.lastFailure
    · rw [if_pos hc, if_pos hc]
    · rw [if_neg hc, if_neg hc]

/-- A breaker query can only turn `open` into `half-open`; it never opens
any breaker. -/
theorem breakerIsOpen_getCB (hm : HostManager) (h : String) (now : Nat) (k : String)
    (hopen : breakerIsOpen ((hm.getCircuitBreakerState h now).2) k) :
    breakerIsOpen hm k := by
  unfold getCircuitBreakerState at hopen
  unfold breakerIsOpen at hopen ⊢
  split at hopen
  · exact hopen
  · rename_i b heq
    split at hopen
    · by_cases hk : k = h
      · subst hk
        rw [Jmap.get?_set_self] at hopen
        simp at hopen
      · rwa [Jmap.get?_set_ne _ _ _ _ hk] at hopen
    · exact hopen

/-- After a breaker query whose answer is not `open`, the stored record
of the queried host is not `open`. -/
theorem not_open_after_check (hm : HostManager) (h : String) (now : Nat)
    (hne : (hm.getCircuitBreakerState h now).1 ≠ BState.opened) :
    ¬ breakerIsOpen ((hm.getCircuitBreakerState h now).2) h := by
  unfold breakerIsOpen
  unfold getCircuitBreakerState at hne ⊢
  cases hb : Jmap.get? hm.circuitBreakers h with
  | none =>
    simp only [hb]
    simp
  | some b =>
    simp only [hb] at hne ⊢
    by_cases hc : b.state = BState.opened ∧ breakerOpenTimeout < now - b.lastFailure
    · simp only [if_pos hc]
      rw [Jmap.get?_set_self]
      simp
    · simp only [if_neg hc] at hne ⊢
      rw [hb]
      simp only [Option.map_some']
      intro hcontra
      exact hne (Option.some.inj hcontra)

end HostManager

/-! ### The circuit-breaker threshold invariant (claim C5 machinery) -/

theorem recordedBreaker_inv (b0 : Breaker) (now : Nat)
    (h0 : b0.state = BState.opened → openThreshold ≤ b0.failures) :
    (HostManager.recordedBreaker b0 now).state = BState.opened →
      openThreshold ≤ (HostManager.recordedBreaker b0 now).failures := by
  simp only [HostManager.recordedBreaker]
  split
  · rename_i hc
    intro _
    exact hc.1
  · intro hopen
    have h1 := h0 hopen
    show openThreshold ≤ b0.failures + 1
    omega

theorem breakerInv_recordFailure (hm : HostManager) (h : String) (now : Nat)
    (hinv : BreakerInv hm) : BreakerInv (hm.recordFailure h now) := by
  intro p hp hopen
  simp only [HostManager.recordFailure] at hp
  rcases Jmap.mem_set hp with h' | h'
  · subst h'
    refine recordedBreaker_inv _ now ?_ hopen
    cases hb : Jmap.get? hm.circuitBreakers h with
    | none =>
      intro hco
      simp [hb, freshBreaker] at hco
    | some b =>
      intro hco
      have := hinv (h, b) (Jmap.get?_eq_some_mem hb)
      simp only [hb, Option.getD_some] at hco ⊢
      exact this hco
  · exact hinv p h' hopen

theorem breakerInv_reset (hm : HostManager) (h : String)
    (hinv : BreakerInv hm) : BreakerInv (hm.resetCircuitBreaker h) := by
  intro p hp hopen
  unfold HostManager.resetCircuitBreaker at hp
  split at hp
  · exact hinv p hp hopen
  · rcases Jmap.mem_set hp with h' | h'
    · subst h'
      simp at hopen
    · exact hinv p h' hopen

theorem breakerInv_getCB (hm : HostManager) (h : String) (now : Nat)
    (hinv : BreakerInv hm) : BreakerInv (hm.getCircuitBreakerState h now).2 := by
  intro p hp hopen
  unfold HostManager.getCircuitBreakerState at hp
  split at hp
  · exact hinv p hp hopen
  · rename_i b heq
    split at hp
    · rcases Jmap.mem_set hp with h' | h'
      · subst h'
        simp at hopen
      · exact hinv p h' hopen
    · exact hinv p hp hopen

theorem breakerInv_scanBest (primary : Option String) (now : Nat) :
    ∀ (l : List (String × HostInfo)) (hm : HostManager) (best : Option (String × Int)),
      BreakerInv hm → BreakerInv (HostManager.scanBest primary now l hm best).1 := by
  intro l
  induction l with
  | nil => intro hm best hinv; exact hinv
  | cons p rest ih =>
    intro hm best hinv
    rcases p with ⟨h, info⟩
    simp only [HostManager.scanBest]
    have hq := breakerInv_getCB hm h now hinv
    split
    · exact ih _ _ hq
    · split
      · exact ih _ _ hq
      · exact ih _ _ hq

theorem breakerInv_updatePreferred (hm : HostManager) (now : Nat)
    (hinv : BreakerInv hm) : BreakerInv (hm.updatePreferredHost now) := by
  simp only [HostManager.updatePreferredHost]
  have h1 := breakerInv_scanBest hm.primaryHost now hm.hosts hm none hinv
  split
  · split
    · intro p hp hopen
      exact h1 p hp hopen
    · exact h1
  · exact h1

theorem breakerInv_updateStatus (hm : HostManager) (h : String) (s : Bool)
    (rt now : Nat) (hinv : BreakerInv hm) :
    BreakerInv (hm.updateHostStatus h s rt now) := by
  simp only [HostManager.updateHostStatus]
  split
  · apply breakerInv_updatePreferred
    intro p hp hopen
    exact breakerInv_reset hm h hinv p hp hopen
  · intro p hp hopen
    exact breakerInv_recordFailure hm h now hinv p hp hopen

theorem breakerInv_collectOthers (pref : Option String) (now : Nat) :
    ∀ (l : List (String × HostInfo)) (hm : HostManager),
      BreakerInv hm → BreakerInv (HostManager.collectOthers pref now l hm).2 := by
  intro l
  induction l with
  | nil => intro hm hinv; exact hinv
  | cons p rest ih =>
    intro hm hinv
    rcases p with ⟨h, info⟩
    simp only [HostManager.collectOthers]
    have hq := breakerInv_getCB hm h now hinv
    split
    · exact ih _ hinv
    · split
      · exact ih _ hq
      · split
        · exact ih _ hq
        · exact ih _ hq

theorem breakerInv_orderedList (hm : HostManager) (now : Nat)
    (hinv : BreakerInv hm) : BreakerInv (hm.getOrderedHostList now).2 := by
  simp only [HostManager.getOrderedHostList]
  have hcand : BreakerInv (hm.orderedCandidates now).2 := by
    simp only [HostManager.orderedCandidates]
    apply breakerInv_collectOthers
    split
    · rename_i ph heq
      split
      · split
        · split
          · exact breakerInv_getCB hm ph now hinv
          · exact breakerInv_getCB hm ph now hinv
        · exact breakerInv_getCB hm ph now hinv
      · exact hinv
    · exact hinv
  split
  · split
    · split <;> exact hcand
    · exact hcand
  · exact hcand

theorem breakerInv_setPrimary (hm : HostManager) (h : String)
    (hinv : BreakerInv hm) : BreakerInv (hm.setPrimaryHost h) := by
  simp only [HostManager.setPrimaryHost]
  intro p hp hopen
  exact breakerInv_reset { hm with primaryHost := some h } h
    (fun q hq ho => hinv q hq ho) p hp hopen

theorem breakerInv_cleanup (hm : HostManager) (now : Nat)
    (hinv : BreakerInv hm) : BreakerInv (hm.cleanup now) := by
  intro p hp hopen
  unfold HostManager.cleanup at hp
  exact hinv p (List.mem_of_mem_filter hp) hopen

theorem breakerInv_foldl (primary : String) (now : Nat) :
    ∀ (bs : List String) (hm : HostManager), BreakerInv hm →
      BreakerInv (bs.foldl
        (fun acc h => if h ≠ "" ∧ h ≠ primary then acc.updateHostStatus h true 0 now else acc)
        hm) := by
  intro bs
  induction bs with
  | nil => intro hm h; exact h
  | cons b bs ih =>
    intro hm h
    simp only [List.foldl_cons]
    apply ih
    split
    · exact breakerInv_updateStatus _ _ _ _ _ h
    · exact h

theorem breakerInv_initialize (hm : HostManager) (primary : String)
    (backups : List String) (now : Nat) (hinv : BreakerInv hm) :
    BreakerInv (hm.initializeHM primary backups now) := by
  simp only [HostManager.initializeHM]
  apply breakerInv_foldl
  exact breakerInv_updateStatus _ _ _ _ _ (fun q hq ho => hinv q hq ho)

theorem breakerInv_applyOp (hm : HostManager) (op : HMOp)
    (hinv : BreakerInv hm) : BreakerInv (applyOp hm op) := by
  cases op with
  | status h s rt now => exact breakerInv_updateStatus hm h s rt now hinv
  | query h now => exact breakerInv_getCB hm h now hinv
  | ordered now => exact breakerInv_orderedList hm now hinv
  | recompute now => exact breakerInv_updatePreferred hm now hinv
  | setPrimary h => exact breakerInv_setPrimary hm h hinv
  | sweep now => exact breakerInv_cleanup hm now hinv
  | init p bs now => exact breakerInv_initialize hm p bs now hinv

/-- Helper: the breaker record written by a recorded failure
(`updateHostStatus(host, false)`). -/
theorem updateStatus_false_breaker (hm : HostManager) (h : String) (rt now : Nat) :
    Jmap.get? (hm.updateHostStatus h false rt now).circuitBreakers h =
      some (HostManager.recordedBreaker
        ((Jmap.get? hm.circuitBreakers h).getD freshBreaker) now) := by
  simp only [HostManager.updateHostStatus, Bool.false_eq_true, if_false,
    HostManager.recordFailure]
  exact Jmap.get?_set_self _ _ _

/-- Claim C5: for every circuit-breaker record reachable by any sequence
of `HostManager` operations (status updates, breaker-state queries,
ordered-list computation, preference recomputation, `setPrimaryHost`,
`cleanup`, `initialize`), state `open` implies `failures >= openThreshold`
(3). -/
theorem reachable_breaker_open_ge_threshold (ops : List HMOp) :
    BreakerInv (runOps ops) := by
  unfold runOps
  have h0 : BreakerInv initHM := by
    intro p hp _
    simp [initHM] at hp
  revert h0
  generalize initHM = hm0
  induction ops generalizing hm0 with
  | nil => intro h; exact h
  | cons op ops ih =>
    intro h
    simp only [List.foldl_cons]
    exact ih _ (breakerInv_applyOp _ op h)

/-- Witness for C5: after three recorded failures the breaker of `a` is
the open record `⟨3, 3, open⟩`, and the invariant theorem applies to it. -/
theorem reachable_breaker_open_ge_threshold_witness :
    ("a", (⟨3, 3, BState.opened⟩ : Breaker)) ∈ (runOps c5ops).circuitBreakers ∧
      openThreshold ≤ 3 :=
  ⟨by decide,
   reachable_breaker_open_ge_threshold c5ops ("a", ⟨3, 3, BState.opened⟩) (by decide) rfl⟩

/-- Claim C4: from a fresh (closed, zero-failure or absent) breaker,
each recorded failure increments the count; the third flips the breaker to
`open` (count 3, stamped), and a fourth leaves it `open`, only
incrementing the count and restamping `lastFailure`. -/
theorem breaker_trips_at_three_failures (hm : HostManager) (h : String)
    (t1 t2 t3 t4 : Nat)
    (hfresh : Jmap.get? hm.circuitBreakers h = none ∨
      ∃ lf, Jmap.get? hm.circuitBreakers h = some ⟨0, lf, BState.closed⟩) :
    Jmap.get? ((hm.updateHostStatus h false 0 t1).updateHostStatus h false 0
        t2).circuitBreakers h = some ⟨2, t2, BState.closed⟩ ∧
    Jmap.get? (((hm.updateHostStatus h false 0 t1).updateHostStatus h false 0
        t2).updateHostStatus h false 0 t3).circuitBreakers h =
      some ⟨3, t3, BState.opened⟩ ∧
    Jmap.get? ((((hm.updateHostStatus h false 0 t1).updateHostStatus h false 0
        t2).updateHostStatus h false 0 t3).updateHostStatus h false 0
        t4).circuitBreakers h = some ⟨4, t4, BState.opened⟩ := by
  have e1 : Jmap.get? (hm.updateHostStatus h false 0 t1).circuitBreakers h =
      some ⟨1, t1, BState.closed⟩ := by
    rw [updateStatus_false_breaker]
    rcases hfresh with h0 | ⟨lf, h0⟩ <;>
      simp [h0, HostManager.recordedBreaker, freshBreaker, openThreshold]
  have e2 : Jmap.get? ((hm.updateHostStatus h false 0 t1).updateHostStatus h false 0
      t2).circuitBreakers h = some ⟨2, t2, BState.closed⟩ := by
    rw [updateStatus_false_breaker, e1]
    simp [HostManager.recordedBreaker, openThreshold]
  have e3 : Jmap.get? (((hm.updateHostStatus h false 0 t1).updateHostStatus h false 0
      t2).updateHostStatus h false 0 t3).circuitBreakers h =
      some ⟨3, t3, BState.opened⟩ := by
    rw [updateStatus_false_breaker, e2]
    simp [HostManager.recordedBreaker, openThreshold]
  have e4 : Jmap.get? ((((hm.updateHostStatus h false 0 t1).updateHostStatus h false 0
      t2).updateHostStatus h false 0 t3).updateHostStatus h false 0
      t4).circuitBreakers h = some ⟨4, t4, BState.opened⟩ := by
    rw [updateStatus_false_breaker, e3]
    simp [HostManager.recordedBreaker, openThreshold]
  exact ⟨e2, e3, e4⟩

/-- Witness for C4 at the constructor state. -/
theorem breaker_trips_at_three_failures_witness :
    Jmap.get? ((((initHM.updateHostStatus "a" false 0 1).updateHostStatus "a" false 0
        2).updateHostStatus "a" false 0 3).updateHostStatus "a" false 0
        4).circuitBreakers "a" = some ⟨4, 4, BState.opened⟩ :=
  (breaker_trips_at_three_failures initHM "a" 1 2 3 4 (Or.inl rfl)).2.2

/-- Claim C6: for a breaker stored as `open`, a state query returns (and
stores) `half-open` exactly when `now - lastFailureAt` exceeds
`breakerOpenTimeout` (60 s); a query at or before the timeout still
returns `open` and leaves the manager untouched. -/
theorem open_to_halfopen_is_read_time (hm : HostManager) (h : String) (now : Nat)
    (b : Breaker) (hb : Jmap.get? hm.circuitBreakers h = some b)
    (hopen : b.state = BState.opened) :
    (breakerOpenTimeout < now - b.lastFailure →
      (hm.getCircuitBreakerState h now).1 = BState.halfOpen ∧
      Jmap.get? ((hm.getCircuitBreakerState h now).2).circuitBreakers h =
        some { b with state := BState.halfOpen }) ∧
    (¬ breakerOpenTimeout < now - b.lastFailure →
      (hm.getCircuitBreakerState h now).1 = BState.opened ∧
      (hm.getCircuitBreakerState h now).2 = hm) := by
  unfold HostManager.getCircuitBreakerState
  simp only [hb]
  constructor
  · intro ht
    rw [if_pos ⟨hopen, ht⟩]
    exact ⟨rfl, Jmap.get?_set_self _ _ _⟩
  · intro ht
    rw [if_neg (fun hc => ht hc.2)]
    exact ⟨hopen, rfl⟩

/-! ### Claim C2 machinery: the ordered host list never ranks an
open-breaker host -/

theorem not_open_collectOthers (pref : Option String) (now : Nat) :
    ∀ (l : List (String × HostInfo)) (hm : HostManager) (k : String),
      ¬ breakerIsOpen hm k →
      ¬ breakerIsOpen (HostManager.collectOthers pref now l hm).2 k := by
  intro l
  induction l with
  | nil => intro hm k h; exact h
  | cons p rest ih =>
    intro hm k hnot
    rcases p with ⟨h, info⟩
    simp only [HostManager.collectOthers]
    have hstep : ¬ breakerIsOpen (hm.getCircuitBreakerState h now).2 k :=
      fun ho => hnot (HostManager.breakerIsOpen_getCB hm h now k ho)
    split
    · exact ih _ _ hnot
    · split
      · exact ih _ _ hstep
      · split
        · exact ih _ _ hstep
        · exact ih _ _ hstep

theorem collectOthers_mem_not_open (pref : Option String) (now : Nat) :
    ∀ (l : List (String × HostInfo)) (hm : HostManager) (c : String × Int),
      c ∈ (HostManager.collectOthers pref now l hm).1 →
      ¬ breakerIsOpen (HostManager.collectOthers pref now l hm).2 c.1 := by
  intro l
  induction l with
  | nil =>
    intro hm c hc
    simp [HostManager.collectOthers] at hc
  | cons p rest ih =>
    intro hm c hc
    rcases p with ⟨h, info⟩
    simp only [HostManager.collectOthers] at hc ⊢
    by_cases h1 : some h = pref
    · rw [if_pos h1] at hc ⊢
      exact ih _ _ hc
    · rw [if_neg h1] at hc ⊢
      by_cases h2 : (hm.getCircuitBreakerState h now).1 = BState.opened
      · rw [if_pos h2] at hc ⊢
        exact ih _ _ hc
      · rw [if_neg h2] at hc ⊢
        by_cases h3 : maxHostAge < now - info.lastSeen
        · rw [if_pos h3] at hc ⊢
          exact ih _ _ hc
        · rw [if_neg h3] at hc ⊢
          rcases List.mem_cons.mp hc with hceq | hcm
          · rw [hceq]
            exact not_open_collectOthers pref now rest _ h
              (HostManager.not_open_after_check hm h now h2)
          · exact ih _ _ hcm

theorem orderedCandidates_mem_not_open (hm : HostManager) (now : Nat)
    (c : String × Int) (hc : c ∈ (hm.orderedCandidates now).1) :
    ¬ breakerIsOpen (hm.orderedCandidates now).2 c.1 := by
  simp only [HostManager.orderedCandidates] at hc ⊢
  rcases hpref : hm.preferredHost with _ | ph
  · rw [hpref] at hc
    dsimp only at hc ⊢
    simp only [List.nil_append] at hc
    exact collectOthers_mem_not_open _ now _ _ c hc
  · rw [hpref] at hc
    dsimp only at hc ⊢
    by_cases hph : ph ≠ ""
    · rw [if_pos hph] at hc ⊢
      cases hinfo : Jmap.get? hm.hosts ph with
      | none =>
        rw [hinfo] at hc
        dsimp only at hc ⊢
        simp only [List.nil_append] at hc
        exact collectOthers_mem_not_open _ now _ _ c hc
      | some info =>
        rw [hinfo] at hc
        dsimp only at hc ⊢
        by_cases hcond : (hm.getCircuitBreakerState ph now).1 ≠ BState.opened ∧
            now - info.lastSeen < recentHostWindow
        · rw [if_pos hcond] at hc ⊢
          rcases List.mem_cons.mp (by simpa using hc) with hceq | hcm
          · rw [hceq]
            exact not_open_collectOthers _ now _ _ ph
              (HostManager.not_open_after_check hm ph now hcond.1)
          · exact collectOthers_mem_not_open _ now _ _ c hcm
        · rw [if_neg hcond] at hc ⊢
          simp only [List.nil_append] at hc
          exact collectOthers_mem_not_open _ now _ _ c hc
    · rw [if_neg hph] at hc ⊢
      simp only [List.nil_append] at hc
      exact collectOthers_mem_not_open _ now _ _ c hc

theorem mem_insertDesc {x c : String × Int} {l : List (String × Int)}
    (h : c ∈ HostManager.insertDesc x l) : c = x ∨ c ∈ l := by
  induction l with
  | nil =>
    left
    simpa [HostManager.insertDesc] using h
  | cons y ys ih =>
    simp only [HostManager.insertDesc] at h
    split at h
    · rcases List.mem_cons.mp h with h' | h'
      · exact Or.inl h'
      · exact Or.inr h'
    · rcases List.mem_cons.mp h with h' | h'
      · exact Or.inr (by simp [h'])
      · rcases ih h' with h'' | h''
        · exact Or.inl h''
        · exact Or.inr (List.mem_cons_of_mem _ h'')

theorem mem_sortDesc {c : String × Int} {l : List (String × Int)}
    (h : c ∈ HostManager.sortDesc l) : c ∈ l := by
  induction l with
  | nil => simpa [HostManager.sortDesc] using h
  | cons x xs ih =>
    simp only [HostManager.sortDesc] at h
    rcases mem_insertDesc h with h' | h'
    · simp [h']
    · exact List.mem_cons_of_mem _ (ih h')

theorem pairwise_insertDesc (x : String × Int) (l : List (String × Int))
    (hl : l.Pairwise (fun a b => b.2 ≤ a.2)) :
    (HostManager.insertDesc x l).Pairwise (fun a b => b.2 ≤ a.2) := by
  induction l with
  | nil => simp [HostManager.insertDesc]
  | cons y ys ih =>
    rcases List.pairwise_cons.mp hl with ⟨hy, hys⟩
    simp only [HostManager.insertDesc]
    split
    · rename_i hle
      refine List.pairwise_cons.mpr ⟨?_, hl⟩
      intro b hb
      rcases List.mem_cons.mp hb with hb' | hb'
      · rw [hb']
        exact hle
      · exact le_trans (hy b hb') hle
    · rename_i hgt
      refine List.pairwise_cons.mpr ⟨?_, ih hys⟩
      intro b hb
      rcases mem_insertDesc hb with hb' | hb'
      · rw [hb']
        omega
      · exact hy b hb'

theorem pairwise_sortDesc (l : List (String × Int)) :
    (HostManager.sortDesc l).Pairwise (fun a b => b.2 ≤ a.2) := by
  induction l with
  | nil => simp [HostManager.sortDesc]
  | cons x xs ih => exact pairwise_insertDesc x _ ih

theorem insertDesc_ne_nil (x : String × Int) (l : List (String × Int)) :
    HostManager.insertDesc x l ≠ [] := by
  cases l with
  | nil => simp [HostManager.insertDesc]
  | cons y ys =>
    simp only [HostManager.insertDesc]
    split <;> simp

theorem sortDesc_eq_nil {l : List (String × Int)}
    (h : HostManager.sortDesc l = []) : l = [] := by
  cases l with
  | nil => rfl
  | cons x xs =>
    simp only [HostManager.sortDesc] at h
    exact absurd h (insertDesc_ne_nil x _)

/-- Claim C2: the ordered host list ranks only hosts whose breaker is not
`open` (the candidates are sorted by descending score, i.e. the preferred
sentinel first, then ascending response time); when the candidate list is
empty the result falls back to the singleton `[primaryHost]`; in the
10.0.0.x scenario the result is `["10.0.0.2", "10.0.0.1"]`. -/
theorem ordered_list_excludes_open_breakers (hm : HostManager) (now : Nat)
    (p : String) (hp : hm.primaryHost = some p) (hpne : p ≠ "") :
    ((hm.orderedCandidates now).1 = [] → (hm.getOrderedHostList now).1 = [p]) ∧
    ((hm.orderedCandidates now).1 ≠ [] →
      ∀ h ∈ (hm.getOrderedHostList now).1,
        ¬ breakerIsOpen (hm.getOrderedHostList now).2 h) ∧
    (HostManager.sortDesc (hm.orderedCandidates now).1).Pairwise
      (fun a b => b.2 ≤ a.2) ∧
    (hmScenarioC2.getOrderedHostList 1000500).1 = ["10.0.0.2", "10.0.0.1"] := by
  refine ⟨?_, ?_, pairwise_sortDesc _, by decide⟩
  · intro hempty
    simp only [HostManager.getOrderedHostList]
    rw [hempty]
    simp [HostManager.sortDesc, hp, hpne]
  · intro hne h hmem
    simp only [HostManager.getOrderedHostList] at hmem ⊢
    have hsne : ¬ (HostManager.sortDesc (hm.orderedCandidates now).1).isEmpty = true := by
      cases hl : HostManager.sortDesc (hm.orderedCandidates now).1 with
      | nil => exact absurd (sortDesc_eq_nil hl) hne
      | cons a as => simp
    rw [if_neg hsne] at hmem ⊢
    rcases List.mem_map.mp hmem with ⟨c, hcs, hch⟩
    have hno := orderedCandidates_mem_not_open hm now c (mem_sortDesc hcs)
    rw [← hch]
    exact hno

/-- Witness for C2: the concrete scenario, via the theorem. -/
theorem ordered_list_excludes_open_breakers_witness :
    (hmScenarioC2.getOrderedHostList 1000500).1 = ["10.0.0.2", "10.0.0.1"] :=
  (ordered_list_excludes_open_breakers hmScenarioC2 1000500 "10.0.0.1" rfl
    (by decide)).2.2.2

/-! ### Claim C3 machinery: characterisation of preferred-host scoring -/

theorem firstMaxSpec_extend_nonqual (primary : Option String)
    (q : String → HostInfo → Bool) (processed : List (String × HostInfo))
    (best : Option (String × Int)) (h : String) (info : HostInfo)
    (hq : q h info = false) (hspec : FirstMaxSpec primary q processed best) :
    FirstMaxSpec primary q (processed ++ [(h, info)]) best := by
  cases best with
  | none =>
    intro p hp
    rcases List.mem_append.mp hp with hp' | hp'
    · exact hspec p hp'
    · rw [List.mem_singleton.mp hp']
      exact hq
  | some b =>
    rcases b with ⟨bh, bs⟩
    rcases hspec with ⟨pre, i0, post, hdec, hqb, hsc, hpre, hpost⟩
    refine ⟨pre, i0, post ++ [(h, info)], ?_, hqb, hsc, hpre, ?_⟩
    · rw [hdec]
      simp
    · intro p hp hqp
      rcases List.mem_append.mp hp with hp' | hp'
      · exact hpost p hp' hqp
      · rw [List.mem_singleton.mp hp'] at hqp
        exact absurd hqp (by simp [hq])

theorem firstMaxSpec_extend_qual_none (primary : Option String)
    (q : String → HostInfo → Bool) (processed : List (String × HostInfo))
    (h : String) (info : HostInfo)
    (hq : q h info = true)
    (hspec : FirstMaxSpec primary q processed none) :
    FirstMaxSpec primary q (processed ++ [(h, info)])
      (some (h, HostManager.hostScore primary h info)) := by
  refine ⟨processed, info, [], rfl, hq, rfl, ?_, by simp⟩
  intro p hp hqp
  exact absurd hqp (by simp [hspec p hp])

theorem firstMaxSpec_extend_qual_some (primary : Option String)
    (q : String → HostInfo → Bool) (processed : List (String × HostInfo))
    (h : String) (info : HostInfo) (bh : String) (bs : Int)
    (hq : q h info = true)
    (hspec : FirstMaxSpec primary q processed (some (bh, bs))) :
    FirstMaxSpec primary q (processed ++ [(h, info)])
      (if bs < HostManager.hostScore primary h info then
        some (h, HostManager.hostScore primary h info)
      else some (bh, bs)) := by
  rcases hspec with ⟨pre, i0, post, hdec, hqb, hsc, hpre, hpost⟩
  by_cases hlt : bs < HostManager.hostScore primary h info
  · rw [if_pos hlt]
    refine ⟨processed, info, [], rfl, hq, rfl, ?_, by simp⟩
    intro p hp hqp
    rw [hdec] at hp
    rcases List.mem_append.mp hp with hp' | hp'
    · exact lt_trans (hpre p hp' hqp) hlt
    · rcases List.mem_cons.mp hp' with hp'' | hp''
      · rw [hp'']
        exact hsc ▸ hlt
      · exact lt_of_le_of_lt (hpost p hp'' hqp) hlt
  · rw [if_neg hlt]
    refine ⟨pre, i0, post ++ [(h, info)], ?_, hqb, hsc, hpre, ?_⟩
    · rw [hdec]
      simp
    · intro p hp hqp
      rcases List.mem_append.mp hp with hp' | hp'
      · exact hpost p hp' hqp
      · rw [List.mem_singleton.mp hp']
        dsimp only
        omega

theorem pureScan_spec (primary : Option String) (q : String → HostInfo → Bool) :
    ∀ (l processed : List (String × HostInfo)) (best : Option (String × Int)),
      FirstMaxSpec primary q processed best →
      FirstMaxSpec primary q (processed ++ l) (pureScan primary q l best) := by
  intro l
  induction l with
  | nil =>
    intro processed best h
    simpa [pureScan] using h
  | cons p rest ih =>
    intro processed best hspec
    rcases p with ⟨h, info⟩
    simp only [pureScan]
    rw [List.append_cons]
    by_cases hq : q h info = true
    · rw [if_pos hq]
      cases best with
      | none =>
        exact ih _ _ (firstMaxSpec_extend_qual_none primary q processed h info hq hspec)
      | some b =>
        rcases b with ⟨bh, bs⟩
        exact ih _ _
          (firstMaxSpec_extend_qual_some primary q processed h info bh bs hq hspec)
    · rw [if_neg hq]
      exact ih _ _ (firstMaxSpec_extend_nonqual primary q processed best h info
        (Bool.not_eq_true _ ▸ hq) hspec)

/-- The mutating scan loop agrees with the pure scan: under distinct host
keys, threading the read-time breaker mutations through the manager does
not change which hosts qualify, and the scan never touches the preferred
host. -/
theorem scanBest_eq_pure (primary : Option String) (now : Nat) :
    ∀ (l : List (String × HostInfo)) (hmt hm0 : HostManager)
      (best : Option (String × Int)),
      (l.map Prod.fst).Nodup →
      (∀ k ∈ l.map Prod.fst,
        Jmap.get? hmt.circuitBreakers k = Jmap.get? hm0.circuitBreakers k) →
      (HostManager.scanBest primary now l hmt best).2 =
          pureScan primary (qualB hm0 now) l best ∧
        (HostManager.scanBest primary now l hmt best).1.preferredHost =
          hmt.preferredHost := by
  intro l
  induction l with
  | nil =>
    intro hmt hm0 best hnd hagree
    exact ⟨rfl, rfl⟩
  | cons p rest ih =>
    intro hmt hm0 best hnd hagree
    rcases p with ⟨h, info⟩
    simp only [List.map_cons, List.nodup_cons] at hnd
    have hagh : Jmap.get? hmt.circuitBreakers h = Jmap.get? hm0.circuitBreakers h :=
      hagree h (by simp)
    have hfst : (hmt.getCircuitBreakerState h now).1 =
        (hm0.getCircuitBreakerState h now).1 :=
      HostManager.getCB_fst_congr hmt hm0 h now hagh
    have hagree' : ∀ k ∈ rest.map Prod.fst,
        Jmap.get? (hmt.getCircuitBreakerState h now).2.circuitBreakers k =
          Jmap.get? hm0.circuitBreakers k := by
      intro k hk
      have hkne : k ≠ h := fun he => hnd.1 (he ▸ hk)
      rw [HostManager.getCB_breakers_ne hmt h now k hkne]
      exact hagree k (List.mem_cons_of_mem _ hk)
    have hpres : (hmt.getCircuitBreakerState h now).2.preferredHost =
        hmt.preferredHost :=
      HostManager.getCB_preferred hmt h now
    simp only [HostManager.scanBest, pureScan]
    by_cases hop : (hm0.getCircuitBreakerState h now).1 = BState.opened
    · rw [if_pos (hfst.trans hop)]
      have hq : qualB hm0 now h info = false := by simp [qualB, hop]
      rw [hq]
      simp only [Bool.false_eq_true, if_false]
      have hres := ih _ hm0 best hnd.2 hagree'
      exact ⟨hres.1, hres.2.trans hpres⟩
    · rw [if_neg (fun hcon => hop (hfst.symm.trans hcon))]
      by_cases hage : maxHostAge < now - info.lastSeen
      · rw [if_pos hage]
        have hq : qualB hm0 now h info = false := by simp [qualB, hage]
        rw [hq]
        simp only [Bool.false_eq_true, if_false]
        have hres := ih _ hm0 best hnd.2 hagree'
        exact ⟨hres.1, hres.2.trans hpres⟩
      · rw [if_neg hage]
        have hq : qualB hm0 now h info = true := by simp [qualB, hop, hage]
        rw [hq]
        simp only [if_true]
        constructor
        · exact (ih _ hm0 _ hnd.2 hagree').1
        · exact ((ih _ hm0 _ hnd.2 hagree').2).trans hpres

/-- Claim C3: `_updatePreferredHost` scores every host whose breaker does
not read `open` and that is within the recency window as
`1000 - responseTime - failures*100 (+50 for the primary)`; the selected
host is the first qualifier attaining the maximal score (ties broken by
iteration order), it becomes `preferredHost`, and with no qualifier the
preferred host is left unchanged.  Concretely, a 10 ms backup beats a
500 ms primary 990 to 550. -/
theorem preferred_host_scoring (hm : HostManager) (now : Nat)
    (hnd : (hm.hosts.map Prod.fst).Nodup) :
    FirstMaxSpec hm.primaryHost (qualB hm now) hm.hosts
      (pureScan hm.primaryHost (qualB hm now) hm.hosts none) ∧
    (pureScan hm.primaryHost (qualB hm now) hm.hosts none = none →
      (hm.updatePreferredHost now).preferredHost = hm.preferredHost) ∧
    (∀ bh bs, pureScan hm.primaryHost (qualB hm now) hm.hosts none = some (bh, bs) →
      bh ≠ "" → (hm.updatePreferredHost now).preferredHost = some bh) ∧
    (hmScenarioC3.updatePreferredHost 1000500).preferredHost = some "10.0.0.2" ∧
    HostManager.hostScore (some "10.0.0.1") "10.0.0.2"
      ⟨1000000, 10, 0, .healthy, none⟩ = 990 ∧
    HostManager.hostScore (some "10.0.0.1") "10.0.0.1"
      ⟨1000000, 500, 0, .healthy, none⟩ = 550 := by
  have hagree : ∀ k ∈ hm.hosts.map Prod.fst,
      Jmap.get? hm.circuitBreakers k = Jmap.get? hm.circuitBreakers k :=
    fun k _ => rfl
  have heq := scanBest_eq_pure hm.primaryHost now hm.hosts hm hm none hnd hagree
  refine ⟨?_, ?_, ?_, by decide, by decide, by decide⟩
  · have := pureScan_spec hm.primaryHost (qualB hm now) hm.hosts [] none
      (by intro p hp; simp at hp)
    simpa using this
  · intro hsel
    simp only [HostManager.updatePreferredHost]
    rw [heq.1.trans hsel]
    exact heq.2
  · intro bh bs hsel hbh
    simp only [HostManager.updatePreferredHost]
    rw [heq.1.trans hsel]
    dsimp only
    by_cases hcond : bh ≠ "" ∧
        some bh ≠ (HostManager.scanBest hm.primaryHost now hm.hosts hm none).1.preferredHost
    · rw [if_pos hcond]
    · rw [if_neg hcond]
      rcases not_and_or.mp hcond with hc | hc
      · exact absurd hbh hc
      · rw [heq.2]
        rw [heq.2] at hc
        exact (not_not.mp hc).symm

/-- Witness for C3: the 10 ms / 500 ms scenario, via the theorem. -/
theorem preferred_host_scoring_witness :
    (hmScenarioC3.updatePreferredHost 1000500).preferredHost = some "10.0.0.2" :=
  (preferred_host_scoring hmScenarioC3 1000500 (by decide)).2.2.2.1

/-! ### Host-map frame lemmas -/

theorem resetCB_hosts (hm : HostManager) (h : String) :
    (hm.resetCircuitBreaker h).hosts = hm.hosts := by
  unfold HostManager.resetCircuitBreaker
  split <;> rfl

theorem scanBest_hosts (primary : Option String) (now : Nat) :
    ∀ (l : List (String × HostInfo)) (hm : HostManager) (best : Option (String × Int)),
      (HostManager.scanBest primary now l hm best).1.hosts = hm.hosts := by
  intro l
  induction l with
  | nil => intro hm best; rfl
  | cons p rest ih =>
    intro hm best
    rcases p with ⟨h, info⟩
    simp only [HostManager.scanBest]
    split
    · exact (ih _ _).trans (HostManager.getCB_hosts hm h now)
    · split
      · exact (ih _ _).trans (HostManager.getCB_hosts hm h now)
      · exact (ih _ _).trans (HostManager.getCB_hosts hm h now)

theorem updatePreferredHost_hosts (hm : HostManager) (now : Nat) :
    (hm.updatePreferredHost now).hosts = hm.hosts := by
  simp only [HostManager.updatePreferredHost]
  split
  · split
    · exact scanBest_hosts _ _ _ _ _
    · exact scanBest_hosts _ _ _ _ _
  · exact scanBest_hosts _ _ _ _ _

theorem updateStatus_true_hosts_self (hm : HostManager) (h : String) (rt now : Nat) :
    Jmap.get? (hm.updateHostStatus h true rt now).hosts h =
      some { lastSeen := now, responseTime := rt, failureCount := 0,
             status := .healthy,
             lastFailure := ((Jmap.get? hm.hosts h).getD freshInfo).lastFailure } := by
  simp only [HostManager.updateHostStatus, if_true]
  rw [updatePreferredHost_hosts]
  exact Jmap.get?_set_self _ _ _

theorem updateStatus_false_failureCount (hm : HostManager) (h : String) (rt now : Nat) :
    ((Jmap.get? (hm.updateHostStatus h false rt now).hosts h).getD freshInfo).failureCount =
      ((Jmap.get? hm.hosts h).getD freshInfo).failureCount + 1 := by
  simp only [HostManager.updateHostStatus, Bool.false_eq_true, if_false]
  rw [Jmap.get?_set_self]
  rfl

theorem updateStatus_false_hosts_self (hm : HostManager) (h : String) (rt now : Nat) :
    Jmap.get? (hm.updateHostStatus h false rt now).hosts h =
      some { lastSeen := ((Jmap.get? hm.hosts h).getD freshInfo).lastSeen,
             responseTime := ((Jmap.get? hm.hosts h).getD freshInfo).responseTime,
             failureCount := ((Jmap.get? hm.hosts h).getD freshInfo).failureCount + 1,
             status := .unhealthy,
             lastFailure := some now } := by
  simp only [HostManager.updateHostStatus, Bool.false_eq_true, if_false]
  exact Jmap.get?_set_self _ _ _

theorem updateStatus_hosts_ne (hm : HostManager) (h : String) (s : Bool)
    (rt now : Nat) (k : String) (hk : k ≠ h) :
    Jmap.get? (hm.updateHostStatus h s rt now).hosts k = Jmap.get? hm.hosts k := by
  simp only [HostManager.updateHostStatus]
  split
  · rw [updatePreferredHost_hosts]
    show Jmap.get? (Jmap.set (hm.resetCircuitBreaker h).hosts h _) k = _
    rw [Jmap.get?_set_ne _ _ _ _ hk, resetCB_hosts]
  · exact Jmap.get?_set_ne _ _ _ _ hk

theorem collectOthers_hosts (pref : Option String) (now : Nat) :
    ∀ (l : List (String × HostInfo)) (hm : HostManager),
      (HostManager.collectOthers pref now l hm).2.hosts = hm.hosts := by
  intro l
  induction l with
  | nil => intro hm; rfl
  | cons p rest ih =>
    intro hm
    rcases p with ⟨h, info⟩
    simp only [HostManager.collectOthers]
    split
    · exact ih _
    · split
      · exact (ih _).trans (HostManager.getCB_hosts hm h now)
      · split
        · exact (ih _).trans (HostManager.getCB_hosts hm h now)
        · exact (ih _).trans (HostManager.getCB_hosts hm h now)

theorem orderedCandidates_hosts (hm : HostManager) (now : Nat) :
    (hm.orderedCandidates now).2.hosts = hm.hosts := by
  simp only [HostManager.orderedCandidates]
  rcases hpref : hm.preferredHost with _ | ph
  · exact collectOthers_hosts _ _ _ _
  · dsimp only
    by_cases hph : ph ≠ ""
    · rw [if_pos hph]
      cases hinfo : Jmap.get? hm.hosts ph with
      | none =>
        dsimp only
        exact (collectOthers_hosts _ _ _ _).trans (HostManager.getCB_hosts hm ph now)
      | some info =>
        dsimp only
        split
        · exact (collectOthers_hosts _ _ _ _).trans (HostManager.getCB_hosts hm ph now)
        · exact (collectOthers_hosts _ _ _ _).trans (HostManager.getCB_hosts hm ph now)
    · rw [if_neg hph]
      exact collectOthers_hosts _ _ _ _

theorem orderedList_hosts (hm : HostManager) (now : Nat) :
    (hm.getOrderedHostList now).2.hosts = hm.hosts := by
  simp only [HostManager.getOrderedHostList]
  split
  · split
    · split <;> exact orderedCandidates_hosts hm now
    · exact orderedCandidates_hosts hm now
  · exact orderedCandidates_hosts hm now

/-! ### Attempt-loop lemmas (claims C1, C9, C10) -/

theorem tryHosts_hosts_ne {α : Type} (net : String → Except ErrV α) (now : Nat) :
    ∀ (l : List String) (hm : HostManager) (lastE : Option ErrV) (k : String),
      k ∉ l →
      Jmap.get? (tryHosts net now l hm lastE).2.1.hosts k = Jmap.get? hm.hosts k := by
  intro l
  induction l with
  | nil => intro hm lastE k _; rfl
  | cons h rest ih =>
    intro hm lastE k hk
    have hkh : k ≠ h := fun he => hk (he ▸ List.mem_cons_self _ _)
    have hkr : k ∉ rest := fun hm' => hk (List.mem_cons_of_mem _ hm')
    cases hnet : net h with
    | ok v =>
      simp only [tryHosts, hnet]
      exact updateStatus_hosts_ne hm h true 0 now k hkh
    | error e =>
      simp only [tryHosts, hnet]
      split
      · exact updateStatus_hosts_ne hm h false 0 now k hkh
      · dsimp only
        rw [ih _ _ k hkr]
        exact updateStatus_hosts_ne hm h false 0 now k hkh

theorem noNewLatency_refl (hm : HostManager) : NoNewLatency hm hm :=
  fun _ info' h => Or.inr ⟨info', h, rfl⟩

theorem noNewLatency_trans {hm1 hm2 hm3 : HostManager}
    (h12 : NoNewLatency hm1 hm2) (h23 : NoNewLatency hm2 hm3) :
    NoNewLatency hm1 hm3 := by
  intro k info' h3
  rcases h23 k info' h3 with h | ⟨info2, hg2, he⟩
  · exact Or.inl h
  · rcases h12 k info2 hg2 with h | ⟨info1, hg1, he1⟩
    · exact Or.inl (he.trans h)
    · exact Or.inr ⟨info1, hg1, he.trans he1⟩

theorem noNewLatency_of_hosts_eq {hm hm' : HostManager} (h : hm'.hosts = hm.hosts) :
    NoNewLatency hm hm' := by
  intro k info' hg
  rw [h] at hg
  exact Or.inr ⟨info', hg, rfl⟩

/-- Both executor recordings — success with the literal `0`, failure
copying the stored record — introduce no new latency measurement. -/
theorem noNewLatency_update (hm : HostManager) (h : String) (s : Bool) (now : Nat) :
    NoNewLatency hm (hm.updateHostStatus h s 0 now) := by
  intro k info' hg
  by_cases hk : k = h
  · subst hk
    cases s with
    | true =>
      rw [updateStatus_true_hosts_self] at hg
      left
      rw [← Option.some.inj hg]
    | false =>
      rw [updateStatus_false_hosts_self] at hg
      have hinfo : info' = _ := (Option.some.inj hg).symm
      rw [hinfo]
      cases hcur : Jmap.get? hm.hosts k with
      | none =>
        left
        simp [hcur, freshInfo]
      | some info =>
        right
        exact ⟨info, rfl, by simp [hcur]⟩
  · rw [updateStatus_hosts_ne hm h s 0 now k hk] at hg
    exact Or.inr ⟨info', hg, rfl⟩

theorem noNewLatency_tryHosts {α : Type} (net : String → Except ErrV α) (now : Nat) :
    ∀ (l : List String) (hm : HostManager) (lastE : Option ErrV),
      NoNewLatency hm (tryHosts net now l hm lastE).2.1 := by
  intro l
  induction l with
  | nil => intro hm lastE; exact noNewLatency_refl hm
  | cons h rest ih =>
    intro hm lastE
    cases hnet : net h with
    | ok v =>
      simp only [tryHosts, hnet]
      exact noNewLatency_update hm h true now
    | error e =>
      simp only [tryHosts, hnet]
      split
      · exact noNewLatency_update hm h false now
      · dsimp only
        exact noNewLatency_trans (noNewLatency_update hm h false now) (ih _ _)

theorem noNewLatency_executeAttempts {α : Type} (net : String → Except ErrV α)
    (hm : HostManager) (now : Nat) :
    NoNewLatency hm (executeAttempts net hm now).2.1 := by
  simp only [executeAttempts]
  split
  · exact noNewLatency_of_hosts_eq (orderedList_hosts hm now)
  · exact noNewLatency_trans (noNewLatency_of_hosts_eq (orderedList_hosts hm now))
      (noNewLatency_tryHosts net now _ _ _)

/-- Processing a prefix of hosts that all fail with retryable
(non-4xx-API) errors reduces the attempt loop to the loop on the
remaining hosts: the prefix hosts are all tried first, hosts outside the
prefix keep their stored record, and no new latency is recorded. -/
theorem tryHosts_prefix_fail {α : Type} (net : String → Except ErrV α) (now : Nat) :
    ∀ (pre rest2 : List String) (hm : HostManager) (lastE : Option ErrV),
      (∀ k ∈ pre, ∃ e, net k = Except.error e ∧ isClientApiError e = false) →
      ∃ (hm' : HostManager) (lastE' : Option ErrV),
        tryHosts net now (pre ++ rest2) hm lastE =
          ((tryHosts net now rest2 hm' lastE').1,
            (tryHosts net now rest2 hm' lastE').2.1,
            pre ++ (tryHosts net now rest2 hm' lastE').2.2) ∧
        (∀ k, k ∉ pre → Jmap.get? hm'.hosts k = Jmap.get? hm.hosts k) ∧
        NoNewLatency hm hm' := by
  intro pre
  induction pre with
  | nil =>
    intro rest2 hm lastE _
    exact ⟨hm, lastE, by rw [List.nil_append, List.nil_append], fun k _ => rfl,
      noNewLatency_refl hm⟩
  | cons p pre ih =>
    intro rest2 hm lastE hpre
    rcases hpre p (List.mem_cons_self _ _) with ⟨e, he, hnotapi⟩
    obtain ⟨hm', lastE', heq, hframe, hlat⟩ :=
      ih rest2 (hm.updateHostStatus p false 0 now) (some e)
        (fun k hk => hpre k (List.mem_cons_of_mem _ hk))
    refine ⟨hm', lastE', ?_, ?_, ?_⟩
    · rw [List.cons_append]
      simp only [tryHosts, he]
      rw [if_neg (by simp [hnotapi])]
      rw [heq]
      rfl
    · intro k hk
      have hkp : k ≠ p := fun hc => hk (hc ▸ List.mem_cons_self _ _)
      have hkpre : k ∉ pre := fun hc => hk (List.mem_cons_of_mem _ hc)
      rw [hframe k hkpre, updateStatus_hosts_ne hm p false 0 now k hkp]
    · exact noNewLatency_trans (noNewLatency_update hm p false now) hlat

theorem tryHosts_all_net {α : Type} (net : String → Except ErrV α) (now : Nat) :
    ∀ (l : List String) (hm : HostManager) (lastE : Option ErrV),
      l ≠ [] → l.Nodup →
      (∀ h ∈ l, ∃ c, net h = Except.error (ErrV.net c)) →
      (tryHosts net now l hm lastE).2.2 = l ∧
      (∃ hl c, l.getLast? = some hl ∧ net hl = Except.error (ErrV.net c) ∧
        (tryHosts net now l hm lastE).1 = Except.error (ErrV.net c)) ∧
      (∀ h ∈ l,
        ((Jmap.get? (tryHosts net now l hm lastE).2.1.hosts h).getD
            freshInfo).failureCount =
          ((Jmap.get? hm.hosts h).getD freshInfo).failureCount + 1) := by
  intro l
  induction l with
  | nil => intro hm lastE hne; exact absurd rfl hne
  | cons h rest ih =>
    intro hm lastE _ hnd hfail
    rcases List.nodup_cons.mp hnd with ⟨hhr, hndr⟩
    rcases hfail h (List.mem_cons_self _ _) with ⟨c, hc⟩
    have hnotapi : ¬ isClientApiError (ErrV.net c) = true := by
      simp [isClientApiError]
    simp only [tryHosts, hc]
    rw [if_neg hnotapi]
    dsimp only
    cases rest with
    | nil =>
      refine ⟨rfl, ⟨h, c, rfl, hc, rfl⟩, ?_⟩
      intro k hkl
      rw [List.mem_singleton.mp hkl]
      simp only [tryHosts]
      exact updateStatus_false_failureCount hm h 0 now
    | cons r2 rs =>
      have hres := ih (hm.updateHostStatus h false 0 now) (some (ErrV.net c))
        (by simp) hndr (fun k hk => hfail k (List.mem_cons_of_mem _ hk))
      refine ⟨by rw [hres.1], ?_, ?_⟩
      · rcases hres.2.1 with ⟨hl', c', hlast, hnet, hret⟩
        exact ⟨hl', c', by rw [List.getLast?_cons_cons]; exact hlast, hnet, hret⟩
      · intro k hkl
        rcases List.mem_cons.mp hkl with hk1 | hk2
        · subst hk1
          rw [tryHosts_hosts_ne net now _ _ _ k hhr]
          exact updateStatus_false_failureCount hm k 0 now
        · rw [hres.2.2 k hk2]
          have hkh : k ≠ h := fun he => hhr (he ▸ hk2)
          rw [updateStatus_hosts_ne hm h false 0 now k hkh]

/-- Claim C1 (amended): whenever an attempt — at the first host of the
ordered list, or at any later host reached after retryable failures on
all earlier hosts — fails with a 4xx `ApiError`, the executor records the
failure for that host, attempts no host after it, and propagates that
`ApiError` verbatim.  (A 5xx `ApiError` instead falls through to the next
host — see the counterexample.) -/
theorem apiError_4xx_short_circuits {α : Type} (net : String → Except ErrV α)
    (hm : HostManager) (now : Nat) (pre : List String) (h : String)
    (rest : List String) (s : Nat) (b : String)
    (hl : (hm.getOrderedHostList now).1 = pre ++ h :: rest)
    (hpre : ∀ k ∈ pre, ∃ e, net k = Except.error e ∧ isClientApiError e = false)
    (hnotin : h ∉ pre)
    (hresp : net h = Except.error (ErrV.api s b))
    (h4 : 400 ≤ s) (h5 : s < 500) :
    (executeAttempts net hm now).1 = Except.error (ErrV.api s b) ∧
    (executeAttempts net hm now).2.2 = pre ++ [h] ∧
    ((Jmap.get? (executeAttempts net hm now).2.1.hosts h).getD
        freshInfo).failureCount =
      ((Jmap.get? hm.hosts h).getD freshInfo).failureCount + 1 := by
  have hapi : isClientApiError (ErrV.api s b) = true := by
    simp [isClientApiError]
    omega
  simp only [executeAttempts, hl]
  rw [if_neg (by simp)]
  obtain ⟨hm', lastE', heq, hframe, _⟩ :=
    tryHosts_prefix_fail net now pre (h :: rest) (hm.getOrderedHostList now).2
      none hpre
  rw [heq]
  simp only [tryHosts, hresp]
  rw [if_pos hapi]
  refine ⟨rfl, rfl, ?_⟩
  have hcount := updateStatus_false_failureCount hm' h 0 now
  rw [hcount, hframe h hnotin, orderedList_hosts]

/-- Counterexample to C1 as stated: the first host fails with the
`ApiError` status 500 (non-2xx), yet the executor attempts the second host
and returns its success instead of propagating the error. -/
theorem apiError_counterexample :
    netScenarioC1 "h1" = Except.error (ErrV.api 500 "boom") ∧
    (executeAttempts netScenarioC1 hmScenarioC1 1500).1 = Except.ok "v" ∧
    (executeAttempts netScenarioC1 hmScenarioC1 1500).2.2 = ["h1", "h2"] := by
  refine ⟨rfl, ?_, ?_⟩ <;> decide

/-- Witness for the amended C1: a 401 on the second host, reached after a
connection error on the first, stops the loop there and is propagated. -/
theorem apiError_4xx_short_circuits_witness :
    (executeAttempts netScenarioC1b hmScenarioC1 1500).1 =
        Except.error (ErrV.api 401 "auth") ∧
      (executeAttempts netScenarioC1b hmScenarioC1 1500).2.2 = ["h1", "h2"] := by
  have happ := apiError_4xx_short_circuits netScenarioC1b hmScenarioC1 1500
    ["h1"] "h2" [] 401 "auth" (by decide)
    (by
      intro k hk
      rw [List.mem_singleton.mp hk]
      exact ⟨ErrV.net "ECONNREFUSED", rfl, rfl⟩)
    (by decide) rfl (by decide) (by decide)
  exact ⟨happ.1, happ.2.1⟩

/-- Claim C9 (amended): when every host in the ordered list fails with a
network-class error, the executor attempts every host in order, rethrows
the last host's error itself (propagated unchanged, with no wrapping
aggregate object), and every tried host's consecutive-failure count is
incremented by one. -/
theorem exhaustion_rethrows_last_error {α : Type} (net : String → Except ErrV α)
    (hm : HostManager) (now : Nat) (l : List String)
    (hl : (hm.getOrderedHostList now).1 = l) (hne : l ≠ []) (hnd : l.Nodup)
    (hfail : ∀ h ∈ l, ∃ c, net h = Except.error (ErrV.net c)) :
    (executeAttempts net hm now).2.2 = l ∧
    (∃ hl' c, l.getLast? = some hl' ∧ net hl' = Except.error (ErrV.net c) ∧
      (executeAttempts net hm now).1 = Except.error (ErrV.net c)) ∧
    (∀ h ∈ l,
      ((Jmap.get? (executeAttempts net hm now).2.1.hosts h).getD
          freshInfo).failureCount =
        ((Jmap.get? hm.hosts h).getD freshInfo).failureCount + 1) := by
  simp only [executeAttempts, hl]
  rw [if_neg (by simp [hne])]
  have hres := tryHosts_all_net net now l (hm.getOrderedHostList now).2 none hne hnd hfail
  refine ⟨hres.1, hres.2.1, ?_⟩
  intro h hmem
  rw [hres.2.2 h hmem, orderedList_hosts]

/-- Counterexample to C9 as stated: on exhaustion the executor's error is
literally the last-tried host's own `NetworkError` (`throw lastError`
rethrows the identical error object) — not a synthetic aggregate error
wrapping it; no wrapper object exists anywhere in the executor. -/
theorem exhaustion_counterexample :
    netScenarioC9 "10.0.0.3" = Except.error (ErrV.net "ECONNREFUSED-3") ∧
    (executeAttempts netScenarioC9 hmScenarioC9 1500).1 =
      Except.error (ErrV.net "ECONNREFUSED-3") ∧
    (executeAttempts netScenarioC9 hmScenarioC9 1500).2.2 =
      ["10.0.0.1", "10.0.0.2", "10.0.0.3"] := by
  refine ⟨rfl, ?_, ?_⟩ <;> decide

/-- Witness for the amended C9 on the three-host scenario. -/
theorem exhaustion_rethrows_last_error_witness :
    (executeAttempts netScenarioC9 hmScenarioC9 1500).2.2 =
      ["10.0.0.1", "10.0.0.2", "10.0.0.3"] ∧
    (∃ hl' c, ["10.0.0.1", "10.0.0.2", "10.0.0.3"].getLast? = some hl' ∧
      netScenarioC9 hl' = Except.error (ErrV.net c) ∧
      (executeAttempts netScenarioC9 hmScenarioC9 1500).1 =
        Except.error (ErrV.net c)) := by
  have happ := exhaustion_rethrows_last_error netScenarioC9 hmScenarioC9 1500
    ["10.0.0.1", "10.0.0.2", "10.0.0.3"] (by decide) (by decide) (by decide)
    (by
      intro h hmem
      simp only [List.mem_cons, List.not_mem_nil, or_false] at hmem
      rcases hmem with rfl | rfl | rfl
      · exact ⟨"ECONNREFUSED-1", rfl⟩
      · exact ⟨"ECONNREFUSED-2", rfl⟩
      · exact ⟨"ECONNREFUSED-3", rfl⟩)
  exact ⟨happ.1, happ.2.1⟩

/-- Claim C10 (implicit): every successful executor call — whether it
succeeds on the first host or on any fallback host reached after
retryable failures — records the serving host with `responseTime = 0`
regardless of actual latency (the source passes the literal `0`), which
makes its preference score `1000` plus the primary bonus; the executor
never stores any new latency value (`NoNewLatency`), so measured
latencies reach the registry only through the health monitor's direct
probes, which do store the elapsed time. -/
theorem executor_success_records_zero_latency {α : Type}
    (net : String → Except ErrV α) (hm : HostManager) (now : Nat)
    (pre : List String) (h : String) (rest : List String) (v : α)
    (hl : (hm.getOrderedHostList now).1 = pre ++ h :: rest)
    (hpre : ∀ k ∈ pre, ∃ e, net k = Except.error e ∧ isClientApiError e = false)
    (hnotin : h ∉ pre)
    (hok : net h = Except.ok v) :
    ((executeAttempts net hm now).1 = Except.ok v ∧
      (executeAttempts net hm now).2.2 = pre ++ [h] ∧
      Jmap.get? (executeAttempts net hm now).2.1.hosts h =
        some { lastSeen := now, responseTime := 0, failureCount := 0,
               status := .healthy,
               lastFailure := ((Jmap.get? hm.hosts h).getD freshInfo).lastFailure }) ∧
    (∀ (primary : Option String) (lf : Option Nat),
      HostManager.hostScore primary h
          { lastSeen := now, responseTime := 0, failureCount := 0,
            status := .healthy, lastFailure := lf } =
        1000 + (if some h = primary then 50 else 0)) ∧
    (∀ (net2 : String → Except ErrV α) (hm2 : HostManager) (now2 : Nat),
      NoNewLatency hm2 (executeAttempts net2 hm2 now2).2.1) ∧
    (∀ (hm2 : HostManager) (host : String) (elapsed now2 : Nat),
      Jmap.get? (healthPing hm2 host true elapsed now2).hosts host =
        some { lastSeen := now2, responseTime := elapsed, failureCount := 0,
               status := .healthy,
               lastFailure := ((Jmap.get? hm2.hosts host).getD freshInfo).lastFailure }) := by
  refine ⟨?_, ?_, ?_, ?_⟩
  · simp only [executeAttempts, hl]
    rw [if_neg (by simp)]
    obtain ⟨hm', lastE', heq, hframe, _⟩ :=
      tryHosts_prefix_fail net now pre (h :: rest) (hm.getOrderedHostList now).2
        none hpre
    rw [heq]
    simp only [tryHosts, hok]
    refine ⟨trivial, trivial, ?_⟩
    rw [updateStatus_true_hosts_self, hframe h hnotin, orderedList_hosts]
  · intro primary lf
    by_cases hp : some h = primary
    · norm_num [HostManager.hostScore, hp]
    · norm_num [HostManager.hostScore, hp]
  · intro net2 hm2 now2
    exact noNewLatency_executeAttempts net2 hm2 now2
  · intro hm2 host elapsed now2
    simp only [healthPing, if_true]
    exact updateStatus_true_hosts_self hm2 host elapsed now2

/-- Witness for C10: the first host times out, the second (fallback) host
succeeds, and its stored record shows `responseTime = 0`. -/
theorem executor_success_records_zero_latency_witness :
    (executeAttempts netScenarioC10 hmScenarioC1 1500).1 = Except.ok "v" ∧
    (executeAttempts netScenarioC10 hmScenarioC1 1500).2.2 = ["h1", "h2"] ∧
    Jmap.get? (executeAttempts netScenarioC10 hmScenarioC1 1500).2.1.hosts "h2" =
      some { lastSeen := 1500, responseTime := 0, failureCount := 0,
             status := .healthy, lastFailure := none } := by
  have happ := executor_success_records_zero_latency netScenarioC10 hmScenarioC1
    1500 ["h1"] "h2" [] "v" (by decide)
    (by
      intro k hk
      rw [List.mem_singleton.mp hk]
      exact ⟨ErrV.net "ETIMEDOUT", rfl, rfl⟩)
    (by decide) rfl
  exact ⟨happ.1.1, happ.1.2.1, happ.1.2.2⟩

/-! ### Cache and coalescer lemmas (claims C7, C8) -/

/-- A plain cacheable call that misses the cache and finds no in-flight
entry starts a new registered request promise. -/
theorem callStep_plain_start {α : Type} (s : CoState α) (key : String) (now : Nat)
    (hmiss : getCachedResponse s.cache key now = none)
    (hpend : Jmap.get? s.pending key = none) :
    callStep s key true false false now =
      (CallRes.started s.nextId,
        ⟨s.cache, Jmap.set s.pending key s.nextId, s.nextId + 1,
          (s.nextId, key, true) :: s.active⟩) := by
  simp [callStep, hmiss, hpend]

/-- Settling a registered promise successfully overwrites the cache and
deletes the pending key. -/
theorem settleStep_reg_ok {α : Type} (s : CoState α) (pid : Nat) (v : α)
    (now : Nat) (key : String)
    (hact : Jmap.get? s.active pid = some (key, true)) :
    settleStep s pid (Except.ok v) now =
      ⟨setCachedResponse s.cache key v now, Jmap.del s.pending key, s.nextId,
        Jmap.del s.active pid⟩ := by
  simp [settleStep, hact]

/-- Settling a registered promise with a failure leaves the cache alone
but still deletes the pending key. -/
theorem settleStep_reg_error {α : Type} (s : CoState α) (pid : Nat) (e : ErrV)
    (now : Nat) (key : String)
    (hact : Jmap.get? s.active pid = some (key, true)) :
    settleStep s pid (Except.error e) now =
      ⟨s.cache, Jmap.del s.pending key, s.nextId, Jmap.del s.active pid⟩ := by
  simp [settleStep, hact]

theorem coInv_init (α : Type) : CoInv (coInit α) := by
  refine ⟨?_, ?_, ?_, ?_, ?_⟩ <;> simp [coInit, Jmap.get?]

theorem coInv_call {α : Type} (s : CoState α) (key : String) (now : Nat)
    (hinv : CoInv s) : CoInv (callStep s key true false false now).2 := by
  obtain ⟨h1, h2, h3, h4, h5⟩ := hinv
  cases hmiss : getCachedResponse s.cache key now with
  | some v =>
    have : callStep s key true false false now = (CallRes.cachedHit v, s) := by
      simp [callStep, hmiss]
    rw [this]
    exact ⟨h1, h2, h3, h4, h5⟩
  | none =>
    cases hpend : Jmap.get? s.pending key with
    | some p =>
      have : callStep s key true false false now = (CallRes.attached p, s) := by
        simp [callStep, hmiss, hpend]
      rw [this]
      exact ⟨h1, h2, h3, h4, h5⟩
    | none =>
      rw [callStep_plain_start s key now hmiss hpend]
      refine ⟨?_, ?_, ?_, ?_, ?_⟩
      · intro pr hpr
        rcases List.mem_cons.mp hpr with h' | h'
        · rw [h']
        · exact h1 pr h'
      · intro k p
        by_cases hk : k = key
        · subst hk
          rw [Jmap.get?_set_self]
          constructor
          · intro hp
            rw [← Option.some.inj hp]
            exact List.mem_cons_self _ _
          · intro hp
            rcases List.mem_cons.mp hp with h' | h'
            · rw [(Prod.mk.injEq _ _ _ _).mp h' |>.1]
            · exact absurd ((h2 k p).mpr h') (by simp [hpend])
        · rw [Jmap.get?_set_ne _ _ _ _ hk]
          constructor
          · intro hp
            exact List.mem_cons_of_mem _ ((h2 k p).mp hp)
          · intro hp
            rcases List.mem_cons.mp hp with h' | h'
            · exact absurd (congrArg (fun x => x.2.1) h' : k = key) hk
            · exact (h2 k p).mpr h'
      · intro pr hpr
        rcases List.mem_cons.mp hpr with h' | h'
        · rw [h']
          exact Nat.lt_succ_self _
        · exact Nat.lt_trans (h3 pr h') (Nat.lt_succ_self _)
      · refine List.nodup_cons.mpr ⟨?_, h4⟩
        intro hmem
        rcases List.mem_map.mp hmem with ⟨pr, hpr, hfst⟩
        have := h3 pr hpr
        omega
      · exact Jmap.keys_set_nodup h5

theorem coInv_del {α : Type} (s : CoState α) (pid : Nat) (key : String)
    (hinv : CoInv s) (hact : Jmap.get? s.active pid = some (key, true)) :
    ∀ cache', CoInv
      (⟨cache', Jmap.del s.pending key, s.nextId, Jmap.del s.active pid⟩ :
        CoState α) := by
  obtain ⟨h1, h2, h3, h4, h5⟩ := hinv
  intro cache'
  have hmemact : (pid, key, true) ∈ s.active := Jmap.get?_eq_some_mem hact
  have hpendk : Jmap.get? s.pending key = some pid := (h2 key pid).mpr hmemact
  refine ⟨?_, ?_, ?_, ?_, ?_⟩
  · intro pr hpr
    exact h1 pr (Jmap.mem_del hpr)
  · intro k p
    by_cases hk : k = key
    · subst hk
      rw [Jmap.get?_del_self h5]
      constructor
      · intro hp
        exact Option.noConfusion hp
      · intro hp
        have hpin : (p, k, true) ∈ s.active := Jmap.mem_del hp
        have hps : Jmap.get? s.pending k = some p := (h2 k p).mpr hpin
        have hppid : p = pid := by
          rw [hpendk] at hps
          exact (Option.some.inj hps).symm
        subst hppid
        exact (Jmap.not_mem_del_self h4 hp).elim
    · rw [Jmap.get?_del_ne _ _ _ hk]
      constructor
      · intro hp
        have hmem := (h2 k p).mp hp
        have hpne : p ≠ pid := by
          intro he
          subst he
          have hsome := Jmap.get?_eq_some_of_mem h4 hmem
          rw [hact] at hsome
          exact hk (congrArg Prod.fst (Option.some.inj hsome)).symm
        exact Jmap.mem_del_of_fst_ne hpne hmem
      · intro hp
        exact (h2 k p).mpr (Jmap.mem_del hp)
  · intro pr hpr
    exact h3 pr (Jmap.mem_del hpr)
  · exact Jmap.keys_del_nodup h4
  · exact Jmap.keys_del_nodup h5

theorem coInv_settle {α : Type} (s : CoState α) (pid : Nat) (o : Except ErrV α)
    (now : Nat) (hinv : CoInv s) : CoInv (settleStep s pid o now) := by
  cases hact : Jmap.get? s.active pid with
  | none =>
    have : settleStep s pid o now = s := by simp [settleStep, hact]
    rw [this]
    exact hinv
  | some pr =>
    rcases pr with ⟨key, reg⟩
    have hreg : reg = true := hinv.1 _ (Jmap.get?_eq_some_mem hact)
    subst hreg
    cases o with
    | ok v =>
      rw [settleStep_reg_ok s pid v now key hact]
      exact coInv_del s pid key hinv hact _
    | error e =>
      rw [settleStep_reg_error s pid e now key hact]
      exact coInv_del s pid key hinv hact _

theorem coInv_foldl {α : Type} :
    ∀ (evs : List (CoEv α)) (s : CoState α), PlainTrace evs → CoInv s →
      CoInv (evs.foldl coStep s) := by
  intro evs
  induction evs with
  | nil => intro s _ h; exact h
  | cons ev evs ih =>
    intro s hp hinv
    simp only [List.foldl_cons]
    have hpev := hp ev (List.mem_cons_self _ _)
    have hptail : PlainTrace evs := fun e he => hp e (List.mem_cons_of_mem _ he)
    apply ih _ hptail
    cases ev with
    | call k g sk r now =>
      obtain ⟨hg, hsk, hr⟩ := hpev
      subst hg
      subst hsk
      subst hr
      exact coInv_call s k now hinv
    | settle pid o now => exact coInv_settle s pid o now hinv

/-- Claim C8: (i) a cacheable call arriving while the key is in flight
attaches to the in-flight promise unchanged — same promise, hence the
same eventual outcome, and no new network attempt; (ii) settling removes
the in-flight entry regardless of the outcome; (iii) across any trace of
plain cacheable calls and settlements, at most one request promise per
key is in flight at any time. -/
theorem request_coalescing :
    (∀ (s : CoState String) (key : String) (now : Nat) (p : Nat),
      getCachedResponse s.cache key now = none →
      Jmap.get? s.pending key = some p →
      callStep s key true false false now = (CallRes.attached p, s)) ∧
    (∀ (s : CoState String) (pid : Nat) (key : String) (o : Except ErrV String)
      (now : Nat),
      (s.pending.map Prod.fst).Nodup →
      Jmap.get? s.active pid = some (key, true) →
      Jmap.get? (settleStep s pid o now).pending key = none) ∧
    (∀ (evs : List (CoEv String)) (k : String) (p1 p2 : Nat) (r1 r2 : Bool),
      PlainTrace evs →
      (p1, k, r1) ∈ (coRun evs).active → (p2, k, r2) ∈ (coRun evs).active →
      p1 = p2) := by
  refine ⟨?_, ?_, ?_⟩
  · intro s key now p hmiss hpend
    simp [callStep, hmiss, hpend]
  · intro s pid key o now hnd hact
    cases o with
    | ok v =>
      rw [settleStep_reg_ok s pid v now key hact]
      exact Jmap.get?_del_self hnd
    | error e =>
      rw [settleStep_reg_error s pid e now key hact]
      exact Jmap.get?_del_self hnd
  · intro evs k p1 p2 r1 r2 hp hm1 hm2
    have hinv : CoInv (coRun evs) :=
      coInv_foldl evs (coInit String) hp (coInv_init String)
    have hr1 : r1 = true := hinv.1 _ hm1
    have hr2 : r2 = true := hinv.1 _ hm2
    subst hr1
    subst hr2
    have e1 := (hinv.2.1 k p1).mpr hm1
    have e2 := (hinv.2.1 k p2).mpr hm2
    rw [e1] at e2
    exact Option.some.inj e2

/-- Witness for C8: a call for the in-flight key attaches to promise 7
without changing the state, and a failed settlement still clears the
pending entry. -/
theorem request_coalescing_witness :
    callStep coStateW "k" true false false 5 = (CallRes.attached 7, coStateW) ∧
    Jmap.get? (settleStep coStateW 7 (Except.error (ErrV.net "x")) 6).pending
        "k" = none :=
  ⟨request_coalescing.1 coStateW "k" 5 7 rfl rfl,
   request_coalescing.2.1 coStateW 7 "k" (Except.error (ErrV.net "x")) 6
     (by decide) rfl⟩

/-- Counterexample to C7 as stated: at `now = 300000` the entry is exactly
TTL old, the read reports absent — but the entry is NOT evicted: the read
has no side effect, and even the executor's call step leaves the expired
entry in the cache. -/
theorem cache_expiry_no_eviction_counterexample :
    getCachedResponse cacheScenarioC7 "k" 300000 = none ∧
    (callStep (⟨cacheScenarioC7, [], 0, []⟩ : CoState String) "k" true false false
        300000).2.cache = cacheScenarioC7 ∧
    Jmap.get? cacheScenarioC7 "k" = some ⟨"old", 0⟩ := by
  refine ⟨rfl, by decide, rfl⟩

/-- Claim C7 (amended): a cache read returns the stored payload unchanged
exactly when the entry exists and `now - storedAt < cacheTTL`; an expired
entry makes the read report absent but is NOT evicted — the subsequent
call starts a fresh network request with the cache unchanged — and a
successful settlement overwrites the entry. -/
theorem cache_read_ttl_and_overwrite (cache : List (String × CacheEntry String))
    (key : String) (now : Nat) (e : CacheEntry String)
    (he : Jmap.get? cache key = some e) :
    (getCachedResponse cache key now =
      if now - e.ts < cacheTTL then some e.data else none) ∧
    (¬ now - e.ts < cacheTTL →
      ∀ (pend : List (String × Nat)) (nid : Nat) (act : List (Nat × String × Bool)),
        Jmap.get? pend key = none →
        (callStep (⟨cache, pend, nid, act⟩ : CoState String) key true false false
            now).1 = CallRes.started nid ∧
        (callStep (⟨cache, pend, nid, act⟩ : CoState String) key true false false
            now).2.cache = cache) ∧
    (∀ (s : CoState String) (pid : Nat) (v : String) (now2 : Nat),
      Jmap.get? s.active pid = some (key, true) →
      Jmap.get? (settleStep s pid (Except.ok v) now2).cache key =
        some ⟨v, now2⟩) := by
  refine ⟨?_, ?_, ?_⟩
  · simp only [getCachedResponse, he]
  · intro hexp pend nid act hpend
    have hmiss : getCachedResponse cache key now = none := by
      simp only [getCachedResponse, he]
      rw [if_neg hexp]
    rw [callStep_plain_start _ _ _ hmiss hpend]
    exact ⟨rfl, rfl⟩
  · intro s pid v now2 hact
    rw [settleStep_reg_ok s pid v now2 key hact]
    exact Jmap.get?_set_self _ _ _

/-- Witness for the amended C7: a fresh read serves the stored payload;
the same entry at TTL age triggers a fresh network attempt. -/
theorem cache_read_ttl_and_overwrite_witness :
    getCachedResponse cacheScenarioC7 "k" 100 = some "old" ∧
    (callStep (⟨cacheScenarioC7, [], 0, []⟩ : CoState String) "k" true false false
        300000).1 = CallRes.started 0 := by
  have happ := cache_read_ttl_and_overwrite cacheScenarioC7 "k" 100 ⟨"old", 0⟩ rfl
  have happ2 := cache_read_ttl_and_overwrite cacheScenarioC7 "k" 300000 ⟨"old", 0⟩ rfl
  constructor
  · rw [happ.1]
    decide
  · exact (happ2.2.1 (by decide) [] 0 [] rfl).1

/-- Witness for C6: at 61001 ms the query reports `half-open`; at
61000 ms (exactly the timeout) it still reports `open`. -/
theorem open_to_halfopen_is_read_time_witness :
    (hmOpenW.getCircuitBreakerState "a" 61001).1 = BState.halfOpen ∧
    (hmOpenW.getCircuitBreakerState "a" 61000).1 = BState.opened :=
  ⟨((open_to_halfopen_is_read_time hmOpenW "a" 61001 ⟨3, 1000, BState.opened⟩ rfl
      rfl).1 (by decide)).1,
   ((open_to_halfopen_is_read_time hmOpenW "a" 61000 ⟨3, 1000, BState.opened⟩ rfl
      rfl).2 (by decide)).1⟩
